import Mathlib

/-
Verification development for the `wordcosmo2` simulation engine
(`src/core/mod.rs`, `src/spatial/mod.rs`, `src/types.rs`, `src/config.rs`).

Shallow embedding conventions:
* `f32` values are modelled as exact rationals (`ℚ`).  All arithmetic
  (`+`, `-`, `*`, `/`, `min`, `max`, comparisons, clamps) is carried over
  exactly; `f32` literals such as `0.02` become the exact rationals they
  denote in the source text (`1/50`).
* `sqrt`, `cos` and `sin` have no exact rational counterpart.  Functions
  that need them either receive the square-root value as an explicit
  certified argument (`resolve_collisions_pair`, `grav_contrib`) or draw it
  from an oracle bundle `Approx` threaded through the pipeline; none of the
  verified claims depend on the oracle values.
* `StdRng` is modelled as an abstract pre-drawn stream of rationals
  (`Rng`): each `gen_range` call consumes the next stream element and
  coerces it into the requested interval.  `StdRng::from_entropy()` in
  `World::new` means the initial stream is an arbitrary external input.
* `HashMap`/`HashSet` are modelled as association lists / membership lists;
  the `text_index` / `word_indices` caches (rebuilt wholesale after every
  structural change, per `rebuild_text_index` / `rebuild_index_map`) are
  modelled by direct search over the live word list.
* Diagnostic-only state (`GravityDebugStats`, candidate counters) is
  omitted: per the spec (§6) it is "diagnostic only, not driving logic",
  and no claim mentions it.
-/

set_option maxHeartbeats 1600000

namespace WordCosmo

/-- 2D vector, embedding `types.rs` `Vec2` (f32 components as `ℚ`). -/
structure Vec2 where
  x : ℚ
  y : ℚ
deriving DecidableEq, Repr

instance : Zero Vec2 := ⟨⟨0, 0⟩⟩
instance : Add Vec2 := ⟨fun a b => ⟨a.x + b.x, a.y + b.y⟩⟩
instance : Neg Vec2 := ⟨fun a => ⟨-a.x, -a.y⟩⟩
instance : Sub Vec2 := ⟨fun a b => ⟨a.x - b.x, a.y - b.y⟩⟩

@[simp] theorem Vec2.zero_x : (0 : Vec2).x = 0 := rfl

@[simp] theorem Vec2.zero_y : (0 : Vec2).y = 0 := rfl

@[simp] theorem Vec2.add_x (a b : Vec2) : (a + b).x = a.x + b.x := rfl

@[simp] theorem Vec2.add_y (a b : Vec2) : (a + b).y = a.y + b.y := rfl

@[simp] theorem Vec2.sub_x (a b : Vec2) : (a - b).x = a.x - b.x := rfl

@[simp] theorem Vec2.sub_y (a b : Vec2) : (a - b).y = a.y - b.y := rfl

@[simp] theorem Vec2.neg_x (a : Vec2) : (-a).x = -a.x := rfl

@[simp] theorem Vec2.neg_y (a : Vec2) : (-a).y = -a.y := rfl

theorem Vec2.ext_xy {a b : Vec2} (hx : a.x = b.x) (hy : a.y = b.y) : a = b := by
  cases a; cases b; cases hx; cases hy; rfl

instance : AddCommGroup Vec2 where
  add_assoc a b c := Vec2.ext_xy (add_assoc _ _ _) (add_assoc _ _ _)
  zero_add a := Vec2.ext_xy (zero_add _) (zero_add _)
  add_zero a := Vec2.ext_xy (add_zero _) (add_zero _)
  add_comm a b := Vec2.ext_xy (add_comm _ _) (add_comm _ _)
  neg_add_cancel a := Vec2.ext_xy (neg_add_cancel _) (neg_add_cancel _)
  sub_eq_add_neg a b := Vec2.ext_xy (sub_eq_add_neg _ _) (sub_eq_add_neg _ _)
  nsmul := nsmulRec
  zsmul := zsmulRec

/-- `Vec2 * f32` componentwise scaling (`impl Mul<f32> for Vec2`). -/
def Vec2.smul (v : Vec2) (s : ℚ) : Vec2 := ⟨v.x * s, v.y * s⟩

@[simp] theorem Vec2.smul_x (v : Vec2) (s : ℚ) : (v.smul s).x = v.x * s := rfl

@[simp] theorem Vec2.smul_y (v : Vec2) (s : ℚ) : (v.smul s).y = v.y * s := rfl

/-- `Vec2::length_sq`. -/
def Vec2.length_sq (v : Vec2) : ℚ := v.x * v.x + v.y * v.y

/-- `Vec2::dot`. -/
def Vec2.dot (a b : Vec2) : ℚ := a.x * b.x + a.y * b.y

/-! ## Configuration constants (`config.rs`), as exact rationals. -/

/-- `config::DT = 1.0 / 60.0`. -/
def DT : ℚ := 1 / 60

/-- `config::WORLD_HALF_WIDTH`. -/
def WORLD_HALF_WIDTH : ℚ := 120

/-- `config::WORLD_HALF_HEIGHT`. -/
def WORLD_HALF_HEIGHT : ℚ := 60

/-- `config::SPATIAL_CELL_SIZE`. -/
def SPATIAL_CELL_SIZE : ℚ := 16

/-- `config::SPATIAL_QUERY_RANGE_GRAVITY`. -/
def SPATIAL_QUERY_RANGE_GRAVITY : ℤ := 5

/-- `config::SPATIAL_QUERY_RANGE_COLLISION`. -/
def SPATIAL_QUERY_RANGE_COLLISION : ℤ := 1

/-- `config::INIT_WORDS`. -/
def INIT_WORDS : ℕ := 24

/-- `config::GRAVITY_G`. -/
def GRAVITY_G : ℚ := 80

/-- `config::GRAVITY_SOFTENING`. -/
def GRAVITY_SOFTENING : ℚ := 4

/-- `config::GRAVITY_CUTOFF`. -/
def GRAVITY_CUTOFF : ℚ := 96

/-- `config::GRAVITY_CUTOFF_FADE_START = 0.7`. -/
def GRAVITY_CUTOFF_FADE_START : ℚ := 7 / 10

/-- `config::GRAVITY_DV_MAX = 2.5`. -/
def GRAVITY_DV_MAX : ℚ := 5 / 2

/-- `config::GRAVITY_MIN_MASS = 0.2`. -/
def GRAVITY_MIN_MASS : ℚ := 1 / 5

/-- `config::BOUNCE_DAMP = 0.9`. -/
def BOUNCE_DAMP : ℚ := 9 / 10

/-- `config::MERGE_REL_SPEED_MAX`. -/
def MERGE_REL_SPEED_MAX : ℚ := 6

/-- `config::SPLIT_REL_SPEED_MIN`. -/
def SPLIT_REL_SPEED_MIN : ℚ := 14

/-- `config::TIDAL_MASS_RATIO` (suffix `_Q` added to the Lean name only). -/
def TIDAL_MASS_RATIO_Q : ℚ := 6

/-- `config::SPLIT_PARTS_MIN`. -/
def SPLIT_PARTS_MIN : ℕ := 2

/-- `config::SPLIT_PARTS_MAX`. -/
def SPLIT_PARTS_MAX : ℕ := 4

/-- `config::SPLIT_RADIAL_SPEED`. -/
def SPLIT_RADIAL_SPEED : ℚ := 8

/-- `config::WEATHERING_RATE = 0.02`. -/
def WEATHERING_RATE : ℚ := 1 / 50

/-- `config::AUTOGENESIS_RATE = 0.08`. -/
def AUTOGENESIS_RATE : ℚ := 2 / 25

/-- `config::MIN_VISIBLE_MASS = 0.2`. -/
def MIN_VISIBLE_MASS : ℚ := 1 / 5

/-- `config::K_VISIBLE_MIN`. -/
def K_VISIBLE_MIN : ℕ := 40

/-- `config::K_VISIBLE_MAX`. -/
def K_VISIBLE_MAX : ℕ := 400

/-- `config::WORD_RADIUS_BASE = 1.2`. -/
def WORD_RADIUS_BASE : ℚ := 6 / 5

/-- `config::WORD_RADIUS_SCALE = 0.06`. -/
def WORD_RADIUS_SCALE : ℚ := 3 / 50

/-- `config::SUN_PULSE_RADIUS`. -/
def SUN_PULSE_RADIUS : ℚ := 32

/-- `config::SUN_PULSE_STRENGTH`. -/
def SUN_PULSE_STRENGTH : ℚ := 14

/-- `config::EFFECT_CAPACITY`. -/
def EFFECT_CAPACITY : ℕ := 512

/-- `config::EFFECT_TTL = 0.6`. -/
def EFFECT_TTL : ℚ := 3 / 5

/-- Modelled from the spec: `config::WORD_JOIN_SEP` is referenced throughout
`core/mod.rs` but the constant itself is missing from the provided
`config.rs`.  Per the spec (§4.5) the merged identity joins the two source
texts "with a separator"; we model the separator as the character `'·'`.
No claim depends on its value. -/
def WORD_JOIN_SEP : Char := '·'

/-- `types::TRAIL_LEN`. -/
def TRAIL_LEN : ℕ := 10

/-! ## Entities (`types.rs` `Word`) -/

/-- `types.rs` `Word`.  `WordFlags` is inlined as the single field
`can_split`; the trail ring buffer keeps its head/length counters. -/
structure Word where
  id : ℕ
  text : String
  pos : Vec2
  vel : Vec2
  radius : ℚ
  mass_total : ℚ
  mass_visible : ℚ
  mass_dust : ℚ
  can_split : Bool
  trail : List Vec2
  trail_head : ℕ
  trail_len : ℕ
deriving DecidableEq, Repr

instance : Inhabited Word :=
  ⟨⟨0, "", 0, 0, 0, 0, 0, 0, false, [], 0, 0⟩⟩

/-- The mass bookkeeping invariant of the spec (§3):
`mass_total == mass_visible + mass_dust`. -/
def MassInv (w : Word) : Prop := w.mass_total = w.mass_visible + w.mass_dust

instance (w : Word) : Decidable (MassInv w) := by
  unfold MassInv; infer_instance

/-! ## Pure helper functions of `core/mod.rs` -/

/-- `core/mod.rs` `smoothstep` (lines 859–865). -/
def smoothstep (edge0 edge1 x : ℚ) : ℚ :=
  if edge1 ≤ edge0 then
    if x < edge1 then 1 else 0
  else
    let t := min (max ((x - edge0) / (edge1 - edge0)) 0) 1
    t * t * (3 - 2 * t)

/-- `core/mod.rs` `gravity_cutoff_weight` (lines 845–857). -/
def gravity_cutoff_weight (r cutoff : ℚ) : ℚ :=
  if cutoff ≤ 0 then 0
  else
    let fade_start := cutoff * GRAVITY_CUTOFF_FADE_START
    if r ≥ cutoff then 0
    else if r ≤ fade_start then 1
    else 1 - smoothstep fade_start cutoff r

/-- One candidate's contribution to the gravity accumulator
(`apply_gravity_nearby`, loop body lines 269–301).  `delta` is
`other.pos - pos`, `other_mv` is `other.mass_visible`, and `r` is the
square root of `delta.length_sq()` (handed in by the caller, who obtains
it from the `Approx` oracle).  The `i == j` self-skip is done by the
caller. -/
def grav_contrib (delta : Vec2) (other_mv : ℚ) (r : ℚ) : Vec2 :=
  let raw_dist_sq := delta.length_sq
  if raw_dist_sq < 1 / 1000000 then 0
  else
    let weight := gravity_cutoff_weight r GRAVITY_CUTOFF
    if weight ≤ 0 then 0
    else
      let dist_sq := raw_dist_sq + GRAVITY_SOFTENING
      let dir := delta.smul (1 / r)
      let mass_for_gravity := max other_mv GRAVITY_MIN_MASS
      let force := GRAVITY_G * mass_for_gravity * weight / dist_sq
      dir.smul force

/-- `record_trail` (lines 677–683). -/
def record_trail (w : Word) : Word :=
  let head := (w.trail_head + 1) % TRAIL_LEN
  { w with
    trail_head := head
    trail := w.trail.set head w.pos
    trail_len := if w.trail_len < TRAIL_LEN then w.trail_len + 1 else w.trail_len }

/-- One word's update inside `integrate` (lines 329–351): advance position
by `vel * dt`, reflect at the four world boundary planes with damping, and
record the trail. -/
def integrate_word (dt : ℚ) (w0 : Word) : Word :=
  let w := { w0 with pos := w0.pos + w0.vel.smul dt }
  let w :=
    if w.pos.x < -WORLD_HALF_WIDTH then
      { w with pos := ⟨-WORLD_HALF_WIDTH, w.pos.y⟩, vel := ⟨-w.vel.x * BOUNCE_DAMP, w.vel.y⟩ }
    else if w.pos.x > WORLD_HALF_WIDTH then
      { w with pos := ⟨WORLD_HALF_WIDTH, w.pos.y⟩, vel := ⟨-w.vel.x * BOUNCE_DAMP, w.vel.y⟩ }
    else w
  let w :=
    if w.pos.y < -WORLD_HALF_HEIGHT then
      { w with pos := ⟨w.pos.x, -WORLD_HALF_HEIGHT⟩, vel := ⟨w.vel.x, -w.vel.y * BOUNCE_DAMP⟩ }
    else if w.pos.y > WORLD_HALF_HEIGHT then
      { w with pos := ⟨w.pos.x, WORLD_HALF_HEIGHT⟩, vel := ⟨w.vel.x, -w.vel.y * BOUNCE_DAMP⟩ }
    else w
  record_trail w

/-- One word's update inside `weathering_step` (lines 605–614). -/
def weather_word (dt : ℚ) (w : Word) : Word :=
  let amount := min (w.mass_visible * WEATHERING_RATE * dt) w.mass_visible
  let mv := w.mass_visible - amount
  let md := w.mass_dust + amount
  { w with mass_visible := mv, mass_dust := md, mass_total := mv + md }

/-- `SpawnRequest` (lines 867–873). -/
structure SpawnRequest where
  text : String
  pos : Vec2
  vel : Vec2
  mass_visible : ℚ
  mass_dust : ℚ
deriving DecidableEq, Repr

/-- `absorb_into_word` (lines 824–842).  `total_mass` is
`req.mass_visible + req.mass_dust`, computed by the caller. -/
def absorb_into_word (w : Word) (req : SpawnRequest) (total_mass : ℚ) : Word :=
  let combined_mass := w.mass_total + total_mass
  let vel :=
    if combined_mass > 0 then
      (w.vel.smul w.mass_total + req.vel.smul total_mass).smul (1 / combined_mass)
    else w.vel
  let pos :=
    if combined_mass > 0 then
      (w.pos.smul w.mass_total + req.pos.smul total_mass).smul (1 / combined_mass)
    else w.pos
  let mv := w.mass_visible + req.mass_visible
  let md := w.mass_dust + req.mass_dust
  { w with
    vel := vel, pos := pos
    mass_visible := mv, mass_dust := md, mass_total := mv + md
    radius := WORD_RADIUS_BASE + (mv + md) * WORD_RADIUS_SCALE }

/-- `merge_text` (lines 551–563). -/
def merge_text (a b : String) : String :=
  if a = "" then b
  else if b = "" then a
  else a ++ String.singleton WORD_JOIN_SEP ++ b

/-- `components` (lines 565–571). -/
def components (text : String) : List String :=
  ((text.split (· = WORD_JOIN_SEP)).map String.trim).filter (fun s => s ≠ "")

/-- `split_groups` (lines 573–588). -/
def split_groups (comps : List String) (parts : ℕ) : List String :=
  let len := comps.length
  let parts := min (max parts 2) len
  let base := len / parts
  let rem := len % parts
  let sep := String.singleton WORD_JOIN_SEP
  let step := fun (st : ℕ × List String) (i : ℕ) =>
    let take := base + if i < rem then 1 else 0
    let group := String.intercalate sep ((comps.drop st.1).take take)
    (st.1 + take, st.2 ++ [group])
  ((List.range parts).foldl step (0, [])).2

/-- The mass split performed at the top of `add_word` (lines 155–166):
given the current count of visible entities and the requested total mass,
return the `(mass_visible, mass_dust)` pair the spawn candidate carries. -/
def add_word_mass (visible_count : ℕ) (mass_total : ℚ) : ℚ × ℚ :=
  if visible_count ≥ K_VISIBLE_MAX then
    let mv := mass_total * (1 / 4)
    (mv, mass_total - mv)
  else
    (mass_total, 0)

/-- Collision events. `core/mod.rs` `Event` (lines 16–20). -/
inductive Event where
  | merge (a b : ℕ)
  | split (id : ℕ)
deriving DecidableEq, Repr

/-- One colliding unordered pair's processing inside `resolve_collisions`
(lines 364–431), starting after the `j <= i` ordering guard.  `dist` is the
square root of `(b.pos - a.pos).length_sq()` and `rel_speed` the square
root of `(b.vel - a.vel).length_sq()`; both are square-root values handed
in by the caller (certified by hypotheses in the theorems below).  Returns
the updated pair and the queued structural events. -/
def resolve_pair (a b : Word) (dist rel_speed : ℚ) : Word × Word × List Event :=
  if a.mass_visible < MIN_VISIBLE_MASS ∧ b.mass_visible < MIN_VISIBLE_MASS then
    (a, b, [])
  else
    let delta := b.pos - a.pos
    let min_dist := a.radius + b.radius
    if dist < min_dist then
      let nd : Vec2 × ℚ :=
        if dist > 1 / 1000000 then (delta.smul (1 / dist), dist) else (⟨1, 0⟩, 0)
      let normal := nd.1
      let dist_safe := nd.2
      let overlap := min_dist - dist_safe
      let a1 := { a with pos := a.pos - normal.smul (overlap * (1 / 2)) }
      let b1 := { b with pos := b.pos + normal.smul (overlap * (1 / 2)) }
      let rel_vel := b1.vel - a1.vel
      let rel_along := rel_vel.dot normal
      let ab2 : Word × Word :=
        if rel_along < 0 then
          let inv_mass_a := if a1.mass_visible > 0 then 1 / a1.mass_visible else 0
          let inv_mass_b := if b1.mass_visible > 0 then 1 / b1.mass_visible else 0
          let inv_mass_sum := inv_mass_a + inv_mass_b
          if inv_mass_sum > 0 then
            let restitution : ℚ := 17 / 20
            let impulse_mag := -(1 + restitution) * rel_along / inv_mass_sum
            let impulse := normal.smul impulse_mag
            ({ a1 with vel := a1.vel - impulse.smul inv_mass_a },
             { b1 with vel := b1.vel + impulse.smul inv_mass_b })
          else (a1, b1)
        else (a1, b1)
      let mass_ratio :=
        if a.mass_total > b.mass_total then a.mass_total / max b.mass_total (1 / 10000)
        else b.mass_total / max a.mass_total (1 / 10000)
      let evs : List Event :=
        if rel_speed ≤ MERGE_REL_SPEED_MAX then
          [Event.merge a.id b.id]
        else if rel_speed ≥ SPLIT_REL_SPEED_MIN ∨ mass_ratio ≥ TIDAL_MASS_RATIO_Q then
          [Event.split a.id, Event.split b.id]
        else []
      (ab2.1, ab2.2, evs)
    else (a, b, [])

/-! ## Random stream and numeric oracles -/

/-- Abstract model of `StdRng`: a pre-drawn stream of rationals plus a
cursor.  Each `gen_range` call consumes one stream element.
`StdRng::from_entropy()` makes the stream an arbitrary external input. -/
structure Rng where
  stream : ℕ → ℚ
  idx : ℕ

/-- Draw the next raw stream value. -/
def Rng.next (r : Rng) : ℚ × Rng := (r.stream r.idx, ⟨r.stream, r.idx + 1⟩)

/-- `rng.gen_range(lo..hi)` on floats: the drawn value is coerced into
`[lo, hi)` (the stream value is used when already in range, `lo`
otherwise).  This is an abstract stand-in for the uniform sampler; no
claim depends on the distribution. -/
def gen_range (lo hi : ℚ) (r : Rng) : ℚ × Rng :=
  let (v, r') := r.next
  (if lo ≤ v ∧ v < hi then v else lo, r')

/-- `rng.gen_range(lo..hi)` on `usize` (half-open). -/
def gen_range_nat_lt (lo hi : ℕ) (r : Rng) : ℕ × Rng :=
  let (v, r') := r.next
  let n := v.floor.toNat
  (if lo ≤ n ∧ n < hi then n else lo, r')

/-- `rng.gen_range(lo..=hi)` on `usize` (inclusive). -/
def gen_range_nat_le (lo hi : ℕ) (r : Rng) : ℕ × Rng :=
  let (v, r') := r.next
  let n := v.floor.toNat
  (if lo ≤ n ∧ n ≤ hi then n else lo, r')

/-- `rng.gen_range(0.0..TAU)`: the sampled angle.  `TAU` is irrational, so
the raw stream value itself stands for the drawn angle; it is only ever
fed to the `cos`/`sin` oracles. -/
def gen_angle (r : Rng) : ℚ × Rng := r.next

/-- Oracle bundle for the three `f32` operations with no exact rational
counterpart (`sqrt`, `cos`, `sin`).  The pipeline is parametric in these;
none of the verified claims depend on their values. -/
structure Approx where
  sqrtA : ℚ → ℚ
  cosA : ℚ → ℚ
  sinA : ℚ → ℚ

/-! ## Spatial hash (`spatial/mod.rs`) -/

/-- `SpatialHash::cell_key` (lines 53–57). -/
def cell_key (cell_size : ℚ) (pos : Vec2) : ℤ × ℤ :=
  (⌊pos.x / cell_size⌋, ⌊pos.y / cell_size⌋)

/-- `spatial/mod.rs` `SpatialHash`.  The `cells` hash map rebuilt by
`rebuild` (lines 27–33) is kept in derived form: the cell of index `i` is
computed from the stored position list, and a cell's member list is the
(index-ordered) list `rebuild` would have produced for it. -/
structure SpatialHash where
  cell_size : ℚ
  positions : List Vec2
deriving DecidableEq, Repr

/-- The member list of one grid cell, as produced by `rebuild`
(indices in increasing order, exactly those whose position maps to the
key). -/
def SpatialHash.cell_list (h : SpatialHash) (key : ℤ × ℤ) : List ℕ :=
  (List.range h.positions.length).filter
    (fun i => cell_key h.cell_size (h.positions.getD i 0) = key)

/-- The integer interval `[-r, r]` (the `-range..=range` loop bounds). -/
def int_range (r : ℤ) : List ℤ :=
  (List.range (2 * r + 1).toNat).map (fun k : ℕ => -r + (k : ℤ))

/-- `SpatialHash::query_neighbors_range` (lines 39–51): indices of all
entries in the `(2r+1) × (2r+1)` block of cells centered on the query
cell, `dy` outer loop, `dx` inner. -/
def SpatialHash.query_neighbors_range (h : SpatialHash) (pos : Vec2) (range : ℤ) : List ℕ :=
  let c := cell_key h.cell_size pos
  let r := max range 0
  (int_range r).flatMap (fun dy =>
    (int_range r).flatMap (fun dx =>
      h.cell_list (c.1 + dx, c.2 + dy)))

/-! ## World state (`core/mod.rs` `World`) -/

/-- `types.rs` `ColorId` (the render-facing color tags used by effects). -/
inductive ColorId where
  | white | cyan | blue | yellow | magenta | red | gray | trailC | spark
deriving DecidableEq, Repr

/-- `types.rs` `EffectParticle`. -/
structure EffectParticle where
  pos : Vec2
  vel : Vec2
  ttl : ℚ
  glyph : Char
  color : ColorId
deriving DecidableEq, Repr

/-- `core/mod.rs` `Sun` (lines 22–27). -/
structure Sun where
  center : Vec2
  radius : ℚ
  strength : ℚ
deriving DecidableEq, Repr

/-- `core/mod.rs` `World` (lines 29–49).  The `text_index` and
`word_indices` caches are rebuilt wholesale after every structural change
(`rebuild_text_index` / `rebuild_index_map`); they are modelled by direct
search over `words`.  `dust_pool` (a `HashMap<String, f32>`) is an
association list with unique keys; its key iteration order (unspecified
for Rust's `HashMap`) is fixed to insertion order.  Diagnostic counters
and `GravityDebugStats` are omitted (diagnostic only, §6). -/
structure World where
  words : List Word
  events : List Event
  spatial : SpatialHash
  sun : Option Sun
  effects : List EffectParticle
  dust_pool : List (String × ℚ)
  rng : Rng
  next_id : ℕ
  effect_cursor : ℕ

/-! ### dust-pool association list helpers (`HashMap<String, f32>`) -/

/-- `HashMap::insert` (upsert, insertion order kept; new keys appended). -/
def pool_insert (k : String) (v : ℚ) : List (String × ℚ) → List (String × ℚ)
  | [] => [(k, v)]
  | e :: rest => if e.1 = k then (k, v) :: rest else e :: pool_insert k v rest

/-- `HashMap::get`, with the `unwrap_or(0.0)` default. -/
def pool_get (k : String) (pool : List (String × ℚ)) : ℚ :=
  ((pool.find? (fun e => e.1 == k)).map Prod.snd).getD 0

/-- Does the pool hold the key? -/
def pool_has (k : String) (pool : List (String × ℚ)) : Bool :=
  (pool.find? (fun e => e.1 == k)).isSome

/-- `dust_pool.entry(k).or_insert(0.0) += v`. -/
def pool_add (k : String) (v : ℚ) (pool : List (String × ℚ)) : List (String × ℚ) :=
  pool_insert k (pool_get k pool + v) pool

/-- `dust_pool.entry(k).or_insert(0.0)` (used by `rebuild_text_index`). -/
def pool_ensure (k : String) (pool : List (String × ℚ)) : List (String × ℚ) :=
  if pool_has k pool then pool else pool ++ [(k, 0)]

/-- The dust entries `rebuild_text_index` (lines 590–596) guarantees:
one (at least zero) entry per live word text. -/
def rebuild_dust_entries (ws : List Word) (pool : List (String × ℚ)) : List (String × ℚ) :=
  ws.foldl (fun p w => pool_ensure w.text p) pool

/-- Update the first word satisfying `p` (models mutating the word found
through the identity indices). -/
def update_first (p : Word → Bool) (f : Word → Word) : List Word → List Word
  | [] => []
  | w :: rest => if p w then f w :: rest else w :: update_first p f rest

/-! ### effects -/

/-- `push_effect` (lines 700–713): bounded ring push. -/
def push_effect (e : EffectParticle) (effects : List EffectParticle)
    (cursor : ℕ) : List EffectParticle × ℕ :=
  if EFFECT_CAPACITY = 0 then (effects, cursor)
  else if effects.length < EFFECT_CAPACITY then (effects ++ [e], cursor)
  else
    let cursor := if cursor ≥ EFFECT_CAPACITY then 0 else cursor
    (effects.set cursor e, (cursor + 1) % EFFECT_CAPACITY)

/-- `spawn_effect_ring` (lines 685–698), parametric in the trig oracle.
`TAU` has no exact rational value; the angle argument fed to the oracle is
`i / count` (the turn fraction), which determines `i as f32 / count as f32
* TAU` uniquely. -/
def spawn_effect_ring (ap : Approx) (center : Vec2) (count : ℕ) (glyph : Char)
    (color : ColorId) (effects : List EffectParticle) (cursor : ℕ) (rng : Rng) :
    List EffectParticle × ℕ × Rng :=
  (List.range count).foldl
    (fun (st : List EffectParticle × ℕ × Rng) i =>
      let frac : ℚ := i / count
      let dir : Vec2 := ⟨ap.cosA frac, ap.sinA frac⟩
      let (speed, rng') := gen_range 4 10 st.2.2
      let vel := dir.smul speed
      let (effects', cursor') :=
        push_effect ⟨center + dir.smul 1, vel, EFFECT_TTL, glyph, color⟩ st.1 st.2.1
      (effects', cursor', rng'))
    (effects, cursor, rng)

/-- `update_effects` (lines 715–724). -/
def update_effects (dt : ℚ) (w : World) : World :=
  let effects := (w.effects.map (fun e =>
    { e with pos := e.pos + e.vel.smul dt, ttl := e.ttl - dt })).filter
    (fun e => e.ttl > 0)
  { w with
    effects := effects
    effect_cursor := if w.effect_cursor ≥ effects.length then 0 else w.effect_cursor }

/-! ### spawn-or-absorb (`core/mod.rs` lines 726–767) -/

/-- `spawn_or_absorb`.  The `text_index` double lookup plus its staleness
fallback (lines 728–745) nets out to "absorb into a live word with this
exact text if one exists", modelled as first-occurrence search. -/
def spawn_or_absorb (ap : Approx) (req : SpawnRequest) (w : World) : World :=
  let total_mass := req.mass_visible + req.mass_dust
  match w.words.find? (fun x => x.text == req.text) with
  | some target =>
    let absorbed := absorb_into_word target req total_mass
    let words := update_first (fun x => x.text == req.text)
      (fun x => absorb_into_word x req total_mass) w.words
    let pool := pool_insert req.text absorbed.mass_dust w.dust_pool
    let erc :=
      spawn_effect_ring ap absorbed.pos 6 '+' ColorId.magenta w.effects w.effect_cursor w.rng
    { w with words := words, dust_pool := pool, effects := erc.1,
             effect_cursor := erc.2.1, rng := erc.2.2 }
  | none =>
    let id := w.next_id
    let radius := WORD_RADIUS_BASE + total_mass * WORD_RADIUS_SCALE
    let word : Word :=
      { id := id, text := req.text, pos := req.pos, vel := req.vel, radius := radius
        mass_total := total_mass, mass_visible := req.mass_visible
        mass_dust := req.mass_dust, can_split := true
        trail := List.replicate TRAIL_LEN req.pos, trail_head := 0, trail_len := 1 }
    { w with words := w.words ++ [word], next_id := id + 1
             dust_pool := pool_insert req.text req.mass_dust w.dust_pool }

/-! ### per-tick pipeline phases -/

/-- `rebuild_spatial_index` (lines 231–235). -/
def rebuild_spatial_index (w : World) : World :=
  { w with spatial := { cell_size := w.spatial.cell_size, positions := w.words.map Word.pos } }

/-- `apply_sun_pulse` (lines 661–675), one word. -/
def sun_pulse_word (ap : Approx) (sun : Sun) (dt : ℚ) (w : Word) : Word :=
  let radius_sq := sun.radius * sun.radius
  let delta := w.pos - sun.center
  let dist_sq := delta.length_sq
  if dist_sq ≤ radius_sq then
    let dir := if dist_sq > 0 then delta.smul (1 / ap.sqrtA dist_sq) else ⟨1, 0⟩
    { w with vel := w.vel + dir.smul (sun.strength * dt) }
  else w

/-- The gravity accumulator for entity `i` over the neighbor index list
`ns` (`apply_gravity_nearby`, lines 263–301): fold of `grav_contrib` with
the self-skip. -/
def grav_accum (ap : Approx) (ws : List Word) (i : ℕ) (ns : List ℕ) : Vec2 :=
  let pos := (ws.getD i default).pos
  ns.foldl
    (fun acc j =>
      if i = j then acc
      else
        let other := ws.getD j default
        let delta := other.pos - pos
        acc + grav_contrib delta other.mass_visible (ap.sqrtA delta.length_sq))
    0

/-- The per-tick `Δv` clamp (lines 302–309). -/
def grav_clamp (ap : Approx) (dt : ℚ) (acc : Vec2) : Vec2 :=
  let acc_len := ap.sqrtA acc.length_sq
  let dv := acc_len * dt
  if acc_len > 0 ∧ dv > GRAVITY_DV_MAX then acc.smul (GRAVITY_DV_MAX / dv) else acc

/-- `apply_gravity_nearby` (lines 237–327), debug statistics omitted. -/
def apply_gravity_nearby (ap : Approx) (dt : ℚ) (w : World) : World :=
  let acc_of : ℕ → Vec2 := fun i =>
    let pos := (w.words.getD i default).pos
    let ns := w.spatial.query_neighbors_range pos SPATIAL_QUERY_RANGE_GRAVITY
    grav_clamp ap dt (grav_accum ap w.words i ns)
  let ws1 := (List.range w.words.length).map
    (fun i =>
      let word := w.words.getD i default
      { word with vel := word.vel + (acc_of i).smul dt })
  let ws2 := match w.sun with
    | none => ws1
    | some sun => ws1.map (sun_pulse_word ap sun dt)
  { w with words := ws2 }

/-- `integrate` (lines 329–351). -/
def integrate (dt : ℚ) (w : World) : World :=
  { w with words := w.words.map (integrate_word dt) }

/-- Inner loop body of `resolve_collisions` for one `(i, j)` pair with
`i < j`: read both words, run `resolve_pair` (with oracle square roots),
write both back and append the queued events. -/
def resolve_at (ap : Approx) (i j : ℕ) (st : List Word × List Event) :
    List Word × List Event :=
  let a := st.1.getD i default
  let b := st.1.getD j default
  let dist := ap.sqrtA (b.pos - a.pos).length_sq
  let rel_speed := ap.sqrtA (b.vel - a.vel).length_sq
  let (a', b', evs) := resolve_pair a b dist rel_speed
  ((st.1.set i a').set j b', st.2 ++ evs)

/-- `resolve_collisions` (lines 353–433): for each `i`, query the (stale,
built at tick start) spatial index at the collision radius around the
*current* position of `i`, and process each neighbor `j > i` in query
order, mutating the pair in place and queueing events. -/
def resolve_collisions (ap : Approx) (w : World) : World :=
  let step := fun (st : List Word × List Event) (i : ℕ) =>
    let pos := (st.1.getD i default).pos
    let ns := w.spatial.query_neighbors_range pos SPATIAL_QUERY_RANGE_COLLISION
    ns.foldl (fun st j => if j ≤ i then st else resolve_at ap i j st) st
  let (ws, evs) := (List.range w.words.length).foldl step (w.words, w.events)
  { w with words := ws, events := evs }

/-! ### event application (`apply_events`, lines 439–545) -/

/-- `find_index` (lines 547–549): the `word_indices` cache maps each live
id to its index; ids are unique, so this is the first index with that
id. -/
def find_index (id : ℕ) : List Word → Option ℕ
  | [] => none
  | w :: rest => if w.id = id then some 0 else (find_index id rest).map (· + 1)

/-- Intermediate state while draining the event queue: the consumed-id
set, the spawn queue, and the rng/effect state mutated by effect rings and
split part draws.  The word list itself is not mutated while draining. -/
structure EventFoldState where
  consumed : List ℕ
  to_add : List SpawnRequest
  rng : Rng
  effects : List EffectParticle
  effect_cursor : ℕ

/-- Processing of one queued event (lines 448–535).  `ws` is the live word
list, unchanged while the queue drains. -/
def apply_event (ap : Approx) (ws : List Word) (st : EventFoldState) :
    Event → EventFoldState
  | Event.merge a b =>
    if st.consumed.contains a ∨ st.consumed.contains b then st
    else
      match find_index a ws, find_index b ws with
      | some ia, some ib =>
        let first := if ia < ib then ia else ib
        let second := if ia < ib then ib else ia
        let a_c := ws.getD first default
        let b_c := ws.getD second default
        let total_mass := a_c.mass_total + b_c.mass_total
        let mass_visible := a_c.mass_visible + b_c.mass_visible
        let mass_dust := a_c.mass_dust + b_c.mass_dust
        let vel := if total_mass > 0 then
            (a_c.vel.smul a_c.mass_total + b_c.vel.smul b_c.mass_total).smul (1 / total_mass)
          else a_c.vel
        let pos := if total_mass > 0 then
            (a_c.pos.smul a_c.mass_total + b_c.pos.smul b_c.mass_total).smul (1 / total_mass)
          else a_c.pos
        let merged_text := merge_text a_c.text b_c.text
        let (effects, cursor, rng) :=
          spawn_effect_ring ap pos 8 '+' ColorId.yellow st.effects st.effect_cursor st.rng
        { st with
          consumed := st.consumed ++ [a_c.id, b_c.id]
          to_add := st.to_add ++
            [⟨merged_text, pos, vel, mass_visible, mass_dust⟩]
          rng := rng, effects := effects, effect_cursor := cursor }
      | _, _ => st
  | Event.split id =>
    if st.consumed.contains id then st
    else
      match (find_index id ws).map (fun i => ws.getD i default) with
      | none => st
      | some base =>
        let comps := components base.text
        if ¬ base.can_split ∨ base.mass_total ≤ 1 ∨ comps.length < 2 then st
        else
          let max_parts := min comps.length SPLIT_PARTS_MAX
          let (parts, rng1) := gen_range_nat_le SPLIT_PARTS_MIN max_parts st.rng
          let part_visible := base.mass_visible / (parts : ℚ)
          let part_dust := base.mass_dust / (parts : ℚ)
          let groups := split_groups comps parts
          let st1 := groups.foldl
            (fun (st : EventFoldState) text =>
              let (angle, rngA) := gen_angle st.rng
              let dir : Vec2 := ⟨ap.cosA angle, ap.sinA angle⟩
              let offset := dir.smul (base.radius * (9 / 10))
              let (jx, rngB) := gen_range (-2) 2 rngA
              let (jy, rngC) := gen_range (-2) 2 rngB
              let radial := dir.smul SPLIT_RADIAL_SPEED
              let pos := base.pos + offset
              let vel := base.vel + (⟨jx, jy⟩ : Vec2) + radial
              { st with
                to_add := st.to_add ++ [⟨text, pos, vel, part_visible, part_dust⟩]
                rng := rngC })
            { st with consumed := st.consumed ++ [base.id], rng := rng1 }
          let (effects, cursor, rng2) :=
            spawn_effect_ring ap base.pos 12 '*' ColorId.red st1.effects st1.effect_cursor st1.rng
          { st1 with rng := rng2, effects := effects, effect_cursor := cursor }

/-- `apply_events` (lines 439–545): drain the queue, remove consumed
words, then spawn all queued results via `spawn_or_absorb`. -/
def apply_events (ap : Approx) (w : World) : World :=
  if w.events.isEmpty then w
  else
    let st0 : EventFoldState := ⟨[], [], w.rng, w.effects, w.effect_cursor⟩
    let st := w.events.foldl (apply_event ap w.words) st0
    let words :=
      if st.consumed.isEmpty then w.words
      else w.words.filter (fun x => ¬ st.consumed.contains x.id)
    let pool :=
      if st.consumed.isEmpty then w.dust_pool
      else rebuild_dust_entries words w.dust_pool
    let w1 : World :=
      { w with words := words, events := [], dust_pool := pool
               rng := st.rng, effects := st.effects, effect_cursor := st.effect_cursor }
    st.to_add.foldl (fun acc req => spawn_or_absorb ap req acc) w1

/-! ### duplicate consolidation (`consolidate_duplicates`, lines 769–822) -/

/-- First-occurrence index of a word with the given text (models the
`index: HashMap<String, usize>` of `consolidate_duplicates`, whose entries
are inserted on first sight of a text). -/
def find_text_idx (t : String) : List Word → Option ℕ
  | [] => none
  | w :: rest => if w.text = t then some 0 else (find_text_idx t rest).map (· + 1)

/-- Merging one drained word `w` into the accumulator entry `target`
(lines 790–810): mass-weighted position/velocity, summed masses,
recomputed radius, trail kept from the heaviest contributor so far
(`best` is the best mass recorded for this entry). -/
def cons_target (target w : Word) (best : ℚ) : Word :=
  let target_mass := target.mass_total
  let total_mass := target_mass + w.mass_total
  let pos := if total_mass > 0 then
      (target.pos.smul target_mass + w.pos.smul w.mass_total).smul (1 / total_mass)
    else target.pos
  let vel := if total_mass > 0 then
      (target.vel.smul target_mass + w.vel.smul w.mass_total).smul (1 / total_mass)
    else target.vel
  let keep_new := w.mass_total > best
  { target with
    pos := pos, vel := vel
    mass_visible := target.mass_visible + w.mass_visible
    mass_dust := target.mass_dust + w.mass_dust
    mass_total := total_mass
    radius := WORD_RADIUS_BASE + total_mass * WORD_RADIUS_SCALE
    trail := if keep_new then w.trail else target.trail
    trail_head := if keep_new then w.trail_head else target.trail_head
    trail_len := if keep_new then w.trail_len else target.trail_len }

/-- The accumulation loop of `consolidate_duplicates` (lines 789–817):
drain the input; a word whose text was already seen is merged (via
`cons_target`) into its first occurrence, otherwise it is appended. -/
def consolidate_core : List Word → List Word → List ℚ → List Word
  | [], merged, _ => merged
  | w :: rest, merged, best_mass =>
    match find_text_idx w.text merged with
    | some idx =>
      let target' := cons_target (merged.getD idx default) w (best_mass.getD idx 0)
      let best_mass' := if w.mass_total > best_mass.getD idx 0 then
          best_mass.set idx w.mass_total
        else best_mass
      consolidate_core rest (merged.set idx target') best_mass'
    | none => consolidate_core rest (merged ++ [w]) (best_mass ++ [w.mass_total])

/-- `consolidate_duplicates` on the word list: early exit on fewer than
two words or when the duplicate scan (lines 773–782, a seen-set pass,
equivalent to "the text list is not nodup") finds nothing. -/
def consolidate_words (ws : List Word) : List Word :=
  if ws.length < 2 then ws
  else if (ws.map Word.text).Nodup then ws
  else consolidate_core ws [] []

/-- `consolidate_duplicates` on the world (the early-exit paths skip the
index rebuilds). -/
def consolidate_duplicates (w : World) : World :=
  if w.words.length < 2 then w
  else if (w.words.map Word.text).Nodup then w
  else
    let ws := consolidate_core w.words [] []
    { w with words := ws, dust_pool := rebuild_dust_entries ws w.dust_pool }

/-! ### mass exchange (`weathering_step` / `autogenesis_step`) -/

/-- `weathering_step` (lines 605–614): weather every word and rebuild the
dust pool from scratch from the new per-text dust masses. -/
def weathering_step (dt : ℚ) (w : World) : World :=
  let ws := w.words.map (weather_word dt)
  let pool := ws.foldl (fun p x => pool_add x.text x.mass_dust p) []
  { w with words := ws, dust_pool := pool }

/-- Count of words at/above the visibility floor (lines 155–160 and
616–621). -/
def visible_count (ws : List Word) : ℕ :=
  (ws.filter (fun w => w.mass_visible ≥ MIN_VISIBLE_MASS)).length

/-- One key's processing inside `autogenesis_step` (lines 628–658). -/
def autogenesis_key (ap : Approx) (dt : ℚ) (w : World) (key : String) : World :=
  let dust := pool_get key w.dust_pool
  if dust ≤ 0 then w
  else
    let amount := dust * AUTOGENESIS_RATE * dt
    let remaining := dust - amount
    match w.words.find? (fun x => x.text == key) with
    | some _ =>
      let words := update_first (fun x => x.text == key)
        (fun x =>
          let mv := x.mass_visible + amount
          { x with mass_visible := mv, mass_dust := remaining
                   mass_total := mv + remaining }) w.words
      { w with words := words, dust_pool := pool_insert key remaining w.dust_pool }
    | none =>
      let (px, rng1) := gen_range (-WORLD_HALF_WIDTH) WORLD_HALF_WIDTH w.rng
      let (py, rng2) := gen_range (-WORLD_HALF_HEIGHT) WORLD_HALF_HEIGHT rng1
      let (vx, rng3) := gen_range (-4) 4 rng2
      let (vy, rng4) := gen_range (-4) 4 rng3
      spawn_or_absorb ap ⟨key, ⟨px, py⟩, ⟨vx, vy⟩, amount, remaining⟩ { w with rng := rng4 }

/-- `autogenesis_step` (lines 616–659): gated by the population floor,
then one pass over the dust-pool keys. -/
def autogenesis_step (ap : Approx) (dt : ℚ) (w : World) : World :=
  if visible_count w.words ≥ K_VISIBLE_MIN then w
  else (w.dust_pool.map Prod.fst).foldl (autogenesis_key ap dt) w

/-! ### tick and the external API -/

/-- `World::tick` (lines 80–95), diagnostic counters omitted. -/
def tick (ap : Approx) (dt : ℚ) (w : World) : World :=
  update_effects dt
    (autogenesis_step ap dt
      (weathering_step dt
        (consolidate_duplicates
          (apply_events ap
            (resolve_collisions ap
              (integrate dt
                (apply_gravity_nearby ap dt
                  (rebuild_spatial_index w))))))))

/-- `World::add_word` (lines 155–178). -/
def add_word (ap : Approx) (text : String) (mass_total : ℚ) (pos : Vec2)
    (w : World) : World :=
  let (mass_visible, mass_dust) := add_word_mass (visible_count w.words) mass_total
  let (speed, rng1) := gen_range 4 10 w.rng
  let (angle, rng2) := gen_angle rng1
  let vel : Vec2 := ⟨ap.cosA angle * speed, ap.sinA angle * speed⟩
  spawn_or_absorb ap ⟨text, pos, vel, mass_visible, mass_dust⟩ { w with rng := rng2 }

/-- `World::set_sun` (lines 180–187). -/
def set_sun (ap : Approx) (center : Vec2) (w : World) : World :=
  let w1 := { w with sun := some ⟨center, SUN_PULSE_RADIUS, SUN_PULSE_STRENGTH⟩ }
  let (effects, cursor, rng) :=
    spawn_effect_ring ap center 10 '*' ColorId.cyan w1.effects w1.effect_cursor w1.rng
  { w1 with effects := effects, effect_cursor := cursor, rng := rng }

/-- The fixed vocabulary of `spawn_initial_words` (lines 190–203). -/
def word_list : List (String × ℚ) :=
  [("卒論", 18), ("研究", 14), ("進学", 12), ("就活", 10), ("発表", 9),
   ("実験", 11), ("締切", 16), ("指導", 8), ("授業", 6), ("生活", 5),
   ("不安", 13), ("期待", 7)]

/-- `spawn_initial_words` (lines 189–223). -/
def spawn_initial_words (ap : Approx) (w : World) : World :=
  (List.range INIT_WORDS).foldl
    (fun (w : World) _ =>
      let (k, rng1) := gen_range_nat_lt 0 word_list.length w.rng
      let e := word_list.getD k ("", 0)
      let (px, rng2) := gen_range (-WORLD_HALF_WIDTH) WORLD_HALF_WIDTH rng1
      let (py, rng3) := gen_range (-WORLD_HALF_HEIGHT) WORLD_HALF_HEIGHT rng2
      let (vx, rng4) := gen_range (-6) 6 rng3
      let (vy, rng5) := gen_range (-6) 6 rng4
      spawn_or_absorb ap ⟨e.1, ⟨px, py⟩, ⟨vx, vy⟩, e.2, 0⟩ { w with rng := rng5 })
    w

/-- `World::new` (lines 52–78).  The rng is `StdRng::from_entropy()`: the
stream comes from OS entropy, an arbitrary external input — `new` takes no
seed. -/
def World.new (ap : Approx) (entropy : Rng) : World :=
  let w0 : World :=
    { words := [], events := [], spatial := ⟨SPATIAL_CELL_SIZE, []⟩, sun := none
      effects := [], dust_pool := [], rng := entropy, next_id := 1, effect_cursor := 0 }
  let w1 := spawn_initial_words ap w0
  { w1 with dust_pool := rebuild_dust_entries w1.words w1.dust_pool }

/-- The external command surface consumed by the UI (§6): `tick`,
`add_word`, `set_sun`. -/
inductive Command where
  | tickC (dt : ℚ)
  | addWordC (text : String) (mass_total : ℚ) (pos : Vec2)
  | setSunC (center : Vec2)

/-- Run a sequence of external commands against a world. -/
def run_commands (ap : Approx) (w : World) : List Command → World
  | [] => w
  | Command.tickC dt :: rest => run_commands ap (tick ap dt w) rest
  | Command.addWordC t m p :: rest => run_commands ap (add_word ap t m p w) rest
  | Command.setSunC c :: rest => run_commands ap (set_sun ap c w) rest

/-! ## Generic helper lemmas -/

theorem foldl_preserve {α : Type _} {β : Type _} {P : α → Prop} {f : α → β → α}
    (h : ∀ s x, P s → P (f s x)) : ∀ (l : List β) (s : α), P s → P (l.foldl f s) := by
  intro l
  induction l with
  | nil => intro s hs; exact hs
  | cons x xs ih => intro s hs; exact ih (f s x) (h s x hs)

theorem mem_update_first {p : Word → Bool} {f : Word → Word} :
    ∀ (ws : List Word) (w : Word), w ∈ update_first p f ws →
      w ∈ ws ∨ ∃ v, v ∈ ws ∧ w = f v := by
  intro ws
  induction ws with
  | nil => intro w h; exact absurd h (by simp [update_first])
  | cons v vs ih =>
    intro w h
    simp only [update_first] at h
    split at h
    · rcases List.mem_cons.mp h with h | h
      · exact Or.inr ⟨v, by simp, h⟩
      · exact Or.inl (List.mem_cons_of_mem _ h)
    · rcases List.mem_cons.mp h with h | h
      · exact Or.inl (by simp [h])
      · rcases ih w h with h' | ⟨u, hu, he⟩
        · exact Or.inl (List.mem_cons_of_mem _ h')
        · exact Or.inr ⟨u, List.mem_cons_of_mem _ hu, he⟩

/-! ## C8: shape of the gravity cutoff weight -/

theorem cubic_strict_mono {a b : ℚ} (h0 : 0 < a) (hab : a < b) (h1 : b < 1) :
    a * a * (3 - 2 * a) < b * b * (3 - 2 * b) := by
  nlinarith [mul_pos (sub_pos.mpr hab) (mul_pos h0 (sub_pos.mpr h1)),
    mul_pos (sub_pos.mpr hab) (mul_pos (lt_trans h0 hab) (sub_pos.mpr h1)),
    mul_pos (sub_pos.mpr hab) (mul_pos h0 (sub_pos.mpr (lt_trans hab h1))),
    mul_pos (sub_pos.mpr hab) (mul_pos (lt_trans h0 hab) (sub_pos.mpr (lt_trans hab h1)))]

/-- C8: for every positive cutoff, `gravity_cutoff_weight` is exactly 1 at
or below the fade-start fraction (0.7) of the cutoff, exactly 0 at or
beyond the cutoff, and strictly decreasing strictly between fade start and
cutoff. -/
theorem C8_cutoff_weight_shape (cutoff : ℚ) (hc : 0 < cutoff) :
    (∀ r, r ≤ cutoff * GRAVITY_CUTOFF_FADE_START → gravity_cutoff_weight r cutoff = 1) ∧
    (∀ r, cutoff ≤ r → gravity_cutoff_weight r cutoff = 0) ∧
    (∀ r1 r2, cutoff * GRAVITY_CUTOFF_FADE_START < r1 → r1 < r2 → r2 < cutoff →
      gravity_cutoff_weight r2 cutoff < gravity_cutoff_weight r1 cutoff) := by
  have hfade : cutoff * GRAVITY_CUTOFF_FADE_START < cutoff := by
    rw [GRAVITY_CUTOFF_FADE_START]; nlinarith
  refine ⟨?_, ?_, ?_⟩
  · intro r hr
    have hrlt : ¬ r ≥ cutoff := not_le.mpr (lt_of_le_of_lt hr hfade)
    simp only [gravity_cutoff_weight, if_neg (not_le.mpr hc), if_neg hrlt, if_pos hr]
  · intro r hr
    simp only [gravity_cutoff_weight, if_neg (not_le.mpr hc), if_pos (ge_iff_le.mpr hr)]
  · intro r1 r2 h1 h12 h2
    have hlt1 : r1 < cutoff := lt_trans h12 h2
    have hgt2 : cutoff * GRAVITY_CUTOFF_FADE_START < r2 := lt_trans h1 h12
    have hne : ¬ cutoff ≤ cutoff * GRAVITY_CUTOFF_FADE_START := not_le.mpr hfade
    have hsub : (0 : ℚ) < cutoff - cutoff * GRAVITY_CUTOFF_FADE_START := by linarith
    have key : ∀ r, cutoff * GRAVITY_CUTOFF_FADE_START < r → r < cutoff →
        gravity_cutoff_weight r cutoff =
          1 - ((r - cutoff * GRAVITY_CUTOFF_FADE_START) /
                (cutoff - cutoff * GRAVITY_CUTOFF_FADE_START)) ^ 2 *
              (3 - 2 * ((r - cutoff * GRAVITY_CUTOFF_FADE_START) /
                (cutoff - cutoff * GRAVITY_CUTOFF_FADE_START))) := by
      intro r hlo hhi
      have ht0 : (0 : ℚ) < (r - cutoff * GRAVITY_CUTOFF_FADE_START) /
          (cutoff - cutoff * GRAVITY_CUTOFF_FADE_START) := by
        apply div_pos <;> linarith
      have ht1 : (r - cutoff * GRAVITY_CUTOFF_FADE_START) /
          (cutoff - cutoff * GRAVITY_CUTOFF_FADE_START) < 1 := by
        rw [div_lt_one hsub]; linarith
      simp only [gravity_cutoff_weight, if_neg (not_le.mpr hc),
        if_neg (not_le.mpr hhi), if_neg (not_le.mpr hlo), smoothstep, if_neg hne]
      rw [max_eq_left (le_of_lt ht0), min_eq_left (le_of_lt ht1)]
      ring
    rw [key r1 h1 hlt1, key r2 hgt2 h2]
    have ht0 : (0 : ℚ) < (r1 - cutoff * GRAVITY_CUTOFF_FADE_START) /
        (cutoff - cutoff * GRAVITY_CUTOFF_FADE_START) := by
      apply div_pos <;> linarith
    have htlt : (r1 - cutoff * GRAVITY_CUTOFF_FADE_START) /
        (cutoff - cutoff * GRAVITY_CUTOFF_FADE_START) <
        (r2 - cutoff * GRAVITY_CUTOFF_FADE_START) /
        (cutoff - cutoff * GRAVITY_CUTOFF_FADE_START) := by
      rw [div_lt_div_iff₀ hsub hsub]
      nlinarith
    have ht1 : (r2 - cutoff * GRAVITY_CUTOFF_FADE_START) /
        (cutoff - cutoff * GRAVITY_CUTOFF_FADE_START) < 1 := by
      rw [div_lt_one hsub]; linarith
    have := cubic_strict_mono ht0 htlt ht1
    nlinarith [this]

/-- C8 witness: cutoff 100 (fade start 70): weight 1 at 10, weight 0 at
100, and strictly smaller at 90 than at 80. -/
theorem C8_cutoff_weight_shape_witness :
    gravity_cutoff_weight 10 100 = 1 ∧ gravity_cutoff_weight 100 100 = 0 ∧
    gravity_cutoff_weight 90 100 < gravity_cutoff_weight 80 100 :=
  ⟨(C8_cutoff_weight_shape 100 (by norm_num)).1 10 (by norm_num [GRAVITY_CUTOFF_FADE_START]),
   (C8_cutoff_weight_shape 100 (by norm_num)).2.1 100 le_rfl,
   (C8_cutoff_weight_shape 100 (by norm_num)).2.2 80 90
     (by norm_num [GRAVITY_CUTOFF_FADE_START]) (by norm_num) (by norm_num)⟩

/-! ## C7: boundary reflection in the integrator -/

/-- C7: after one integration step every entity position lies inside
`[-half, +half]` on both axes; an entity whose advanced position exceeds a
bound is clamped to that bound with the corresponding velocity component
negated and damped.  (The advanced position is `pos + vel·dt`; each axis is
handled independently.) -/
theorem C7_integrate_reflect (w : Word) (dt : ℚ) :
    (-WORLD_HALF_WIDTH ≤ (integrate_word dt w).pos.x ∧
      (integrate_word dt w).pos.x ≤ WORLD_HALF_WIDTH ∧
      -WORLD_HALF_HEIGHT ≤ (integrate_word dt w).pos.y ∧
      (integrate_word dt w).pos.y ≤ WORLD_HALF_HEIGHT) ∧
    (WORLD_HALF_WIDTH < w.pos.x + w.vel.x * dt →
      (integrate_word dt w).pos.x = WORLD_HALF_WIDTH ∧
      (integrate_word dt w).vel.x = -w.vel.x * BOUNCE_DAMP) ∧
    (w.pos.x + w.vel.x * dt < -WORLD_HALF_WIDTH →
      (integrate_word dt w).pos.x = -WORLD_HALF_WIDTH ∧
      (integrate_word dt w).vel.x = -w.vel.x * BOUNCE_DAMP) ∧
    (WORLD_HALF_HEIGHT < w.pos.y + w.vel.y * dt →
      (integrate_word dt w).pos.y = WORLD_HALF_HEIGHT ∧
      (integrate_word dt w).vel.y = -w.vel.y * BOUNCE_DAMP) ∧
    (w.pos.y + w.vel.y * dt < -WORLD_HALF_HEIGHT →
      (integrate_word dt w).pos.y = -WORLD_HALF_HEIGHT ∧
      (integrate_word dt w).vel.y = -w.vel.y * BOUNCE_DAMP) := by
  simp only [integrate_word, record_trail, Vec2.add_x, Vec2.add_y, Vec2.smul_x, Vec2.smul_y]
  split_ifs <;>
    simp_all [WORLD_HALF_WIDTH, WORLD_HALF_HEIGHT] <;>
    (repeat' constructor) <;>
    intros <;>
    (repeat' constructor) <;>
    first
      | rfl
      | linarith
      | (exfalso; linarith)

/-- The concrete scenario of the claim: entity at `x = half_width + 1`
with velocity `(10, 0)`. -/
def w_boundary : Word :=
  ⟨1, "w", ⟨WORLD_HALF_WIDTH + 1, 0⟩, ⟨10, 0⟩, 1, 10, 10, 0, true,
    List.replicate TRAIL_LEN 0, 0, 0⟩

/-- C7 witness: the claim's concrete instance — after one step at the
standard `DT`, `x = half_width` and `vel.x < 0`. -/
theorem C7_integrate_reflect_witness :
    (integrate_word DT w_boundary).pos.x = WORLD_HALF_WIDTH ∧
    (integrate_word DT w_boundary).vel.x < 0 ∧
    (-WORLD_HALF_WIDTH ≤ (integrate_word DT w_boundary).pos.x ∧
      (integrate_word DT w_boundary).pos.x ≤ WORLD_HALF_WIDTH ∧
      -WORLD_HALF_HEIGHT ≤ (integrate_word DT w_boundary).pos.y ∧
      (integrate_word DT w_boundary).pos.y ≤ WORLD_HALF_HEIGHT) := by
  have h := C7_integrate_reflect w_boundary DT
  have hcond : WORLD_HALF_WIDTH < w_boundary.pos.x + w_boundary.vel.x * DT := by
    norm_num [w_boundary, WORLD_HALF_WIDTH, DT]
  refine ⟨(h.2.1 hcond).1, ?_, h.1⟩
  have hv := (h.2.1 hcond).2
  rw [hv]
  norm_num [w_boundary, BOUNCE_DAMP]

/-! ## C10: add_word mass split -/

/-- C10: for an `add_word` call, if the visible population count is at or
above `K_VISIBLE_MAX` the spawn candidate carries a quarter of the
requested mass as visible mass and three quarters as dust; otherwise all
of it as visible mass; in both cases the candidate's total is the
requested mass.  (In `add_word`, lines 155–178, the candidate handed to
`spawn_or_absorb` carries exactly `add_word_mass (visible_count words)
mass_total`.) -/
theorem C10_add_word_mass (ws : List Word) (m : ℚ) :
    (visible_count ws ≥ K_VISIBLE_MAX →
      (add_word_mass (visible_count ws) m).1 = m * (1 / 4) ∧
      (add_word_mass (visible_count ws) m).2 = m * (3 / 4)) ∧
    (visible_count ws < K_VISIBLE_MAX →
      (add_word_mass (visible_count ws) m).1 = m ∧
      (add_word_mass (visible_count ws) m).2 = 0) ∧
    (add_word_mass (visible_count ws) m).1 + (add_word_mass (visible_count ws) m).2 = m := by
  unfold add_word_mass
  split_ifs with h
  · refine ⟨fun _ => ⟨rfl, by ring⟩, fun hlt => absurd h (not_le.mpr hlt), by ring⟩
  · exact ⟨fun hge => absurd hge h, fun _ => ⟨rfl, rfl⟩, by ring⟩

/-- C10 witness: with no visible entities (count 0 < 400), a request of
mass 8 carries all 8 visible and no dust, totalling 8. -/
theorem C10_add_word_mass_witness :
    (add_word_mass (visible_count []) 8).1 = 8 ∧
    (add_word_mass (visible_count []) 8).2 = 0 ∧
    (add_word_mass (visible_count []) 8).1 + (add_word_mass (visible_count []) 8).2 = 8 := by
  have h := C10_add_word_mass [] 8
  have hlt : visible_count [] < K_VISIBLE_MAX := by
    norm_num [visible_count, K_VISIBLE_MAX]
  exact ⟨(h.2.1 hlt).1, (h.2.1 hlt).2, h.2.2⟩

/-! ## C4: gravity candidate mass floor -/

/-- Concrete oracle instance used in closed witnesses and counterexamples.
`sqrtA` is the identity, used only at points where the statement certifies
the value (e.g. `sqrtA 1 = 1`). -/
def apX : Approx := ⟨id, id, id⟩

/-- `(v.smul s).length_sq = v.length_sq * s²`. -/
theorem length_sq_smul (v : Vec2) (s : ℚ) :
    (v.smul s).length_sq = v.length_sq * (s * s) := by
  simp only [Vec2.length_sq, Vec2.smul_x, Vec2.smul_y]; ring

/-- C4 counterexample: the code has no mass filter on gravity candidates.
A candidate with `mass_visible = 0` — below the `GRAVITY_MIN_MASS` floor
(and below the visibility floor, which is the same value) — still
contributes a nonzero acceleration: its mass is clamped *up* to the floor
(`other_mass_visible.max(GRAVITY_MIN_MASS)`, line 295), not skipped.
Here entity 0 sits at the origin and the only candidate, of zero visible
mass, sits at distance 1 (`sqrtA 1 = 1` with the `apX` oracle). -/
theorem C4_counterexample :
    (0 : ℚ) < GRAVITY_MIN_MASS ∧
    grav_accum apX
      [⟨1, "a", ⟨0, 0⟩, 0, 1, 10, 10, 0, true, [], 0, 0⟩,
       ⟨2, "b", ⟨1, 0⟩, 0, 1, 0, 0, 0, true, [], 0, 0⟩] 0 [0, 1] =
      Vec2.mk (16 / 5) 0 ∧
    Vec2.mk (16 / 5) 0 ≠ 0 := by
  refine ⟨by norm_num [GRAVITY_MIN_MASS], ?_,
    fun h => by have hx := congrArg Vec2.x h; norm_num [Vec2.zero_x] at hx⟩
  norm_num [grav_accum, grav_contrib, apX, Vec2.length_sq, Vec2.smul, gravity_cutoff_weight,
    GRAVITY_CUTOFF, GRAVITY_CUTOFF_FADE_START, GRAVITY_G, GRAVITY_MIN_MASS, GRAVITY_SOFTENING,
    Vec2.mk.injEq]

/-- C4 (amended): *every* candidate that passes the distance guard and has
positive cutoff weight contributes, along the unit direction toward the
candidate, with magnitude
`G · max(candidate_mass, massFloor) · weight / (distance² + softening)` —
including candidates below the mass floor, whose mass is clamped up to the
floor and whose contribution is therefore nonzero. -/
theorem C4_contrib_magnitude (delta : Vec2) (mv r : ℚ) (hr : 0 < r)
    (hsq : r * r = delta.length_sq)
    (hguard : ¬ delta.length_sq < 1 / 1000000)
    (hw : 0 < gravity_cutoff_weight r GRAVITY_CUTOFF) :
    (delta.smul (1 / r)).length_sq = 1 ∧
    grav_contrib delta mv r =
      (delta.smul (1 / r)).smul
        (GRAVITY_G * max mv GRAVITY_MIN_MASS * gravity_cutoff_weight r GRAVITY_CUTOFF /
          (delta.length_sq + GRAVITY_SOFTENING)) ∧
    grav_contrib delta mv r ≠ 0 := by
  have hr0 : r ≠ 0 := ne_of_gt hr
  have hunit : (delta.smul (1 / r)).length_sq = 1 := by
    rw [length_sq_smul, ← hsq]
    field_simp
  have heq : grav_contrib delta mv r =
      (delta.smul (1 / r)).smul
        (GRAVITY_G * max mv GRAVITY_MIN_MASS * gravity_cutoff_weight r GRAVITY_CUTOFF /
          (delta.length_sq + GRAVITY_SOFTENING)) := by
    simp only [grav_contrib, if_neg hguard, if_neg (not_le.mpr hw)]
  refine ⟨hunit, heq, ?_⟩
  intro hzero
  have hlen : (grav_contrib delta mv r).length_sq = 0 := by
    rw [hzero]; simp [Vec2.length_sq]
  rw [heq, length_sq_smul, hunit, one_mul] at hlen
  have hforce : 0 < GRAVITY_G * max mv GRAVITY_MIN_MASS *
      gravity_cutoff_weight r GRAVITY_CUTOFF / (delta.length_sq + GRAVITY_SOFTENING) := by
    apply div_pos
    · apply mul_pos (mul_pos ?_ ?_) hw
      · norm_num [GRAVITY_G]
      · exact lt_of_lt_of_le (by norm_num [GRAVITY_MIN_MASS]) (le_max_right _ _)
    · have := hsq ▸ mul_pos hr hr
      norm_num [GRAVITY_SOFTENING]
      nlinarith
  nlinarith [hforce]

/-- C4 amended-theorem witness: the same concrete sub-floor candidate —
distance 1, zero candidate mass — satisfies all guards, and the theorem
yields its nonzero contribution. -/
theorem C4_contrib_magnitude_witness :
    (Vec2.mk 1 0 |>.smul (1 / 1)).length_sq = 1 ∧
    grav_contrib ⟨1, 0⟩ 0 1 =
      (Vec2.mk 1 0 |>.smul (1 / 1)).smul
        (GRAVITY_G * max 0 GRAVITY_MIN_MASS * gravity_cutoff_weight 1 GRAVITY_CUTOFF /
          ((Vec2.mk 1 0).length_sq + GRAVITY_SOFTENING)) ∧
    grav_contrib ⟨1, 0⟩ 0 1 ≠ 0 :=
  C4_contrib_magnitude ⟨1, 0⟩ 0 1 (by norm_num)
    (by norm_num [Vec2.length_sq])
    (by norm_num [Vec2.length_sq])
    (by norm_num [gravity_cutoff_weight, GRAVITY_CUTOFF, GRAVITY_CUTOFF_FADE_START])

/-! ## C5: merge/split classification order -/

/-- Colliding pair for the C5 counterexample: equal masses, overlapping
(distance 1 < combined radius 4), approaching head-on with pre-impulse
relative speed 7 (above the merge threshold 6). -/
def c5_a : Word := ⟨1, "a", ⟨0, 0⟩, ⟨7 / 2, 0⟩, 2, 10, 10, 0, true, [], 0, 0⟩

/-- Second entity of the C5 counterexample pair. -/
def c5_b : Word := ⟨2, "b", ⟨1, 0⟩, ⟨-7 / 2, 0⟩, 2, 10, 10, 0, true, [], 0, 0⟩

/-- C5 counterexample: the claim classifies on the *post-impulse* relative
speed, the code (lines 391–393 vs 407–429) computes `rel_speed` *before*
applying the impulse.  For this pair the pre-impulse relative speed is 7
(> merge threshold 6), the restitution-0.85 impulse reverses it to 5.95,
whose square 35.4025 is below the merge threshold squared — yet no Merge
event is queued (nor any Split: 7 < 14 and mass ratio 1 < 6).  The first
two conjuncts certify the square-root inputs `dist = 1`, `rel_speed = 7`;
the third that the pair overlaps. -/
theorem C5_counterexample :
    (1 : ℚ) * 1 = (c5_b.pos - c5_a.pos).length_sq ∧
    (7 : ℚ) * 7 = (c5_b.vel - c5_a.vel).length_sq ∧
    (1 : ℚ) < c5_a.radius + c5_b.radius ∧
    ((resolve_pair c5_a c5_b 1 7).2.1.vel - (resolve_pair c5_a c5_b 1 7).1.vel).length_sq ≤
      MERGE_REL_SPEED_MAX * MERGE_REL_SPEED_MAX ∧
    (resolve_pair c5_a c5_b 1 7).2.2 = [] := by
  refine ⟨by norm_num [c5_a, c5_b, Vec2.length_sq], by norm_num [c5_a, c5_b, Vec2.length_sq],
    by norm_num [c5_a, c5_b], ?_, ?_⟩ <;>
  norm_num [resolve_pair, c5_a, c5_b, Vec2.length_sq, Vec2.smul, Vec2.dot, MIN_VISIBLE_MASS,
    MERGE_REL_SPEED_MAX, SPLIT_REL_SPEED_MIN, TIDAL_MASS_RATIO_Q]

/-- C5 (amended): the classification uses the relative speed measured
*before* the impulse; with that reading the claim's order holds: a
colliding, not-both-subvisible pair with (pre-impulse) relative speed at
or below the merge threshold queues exactly one Merge event and no Split —
even when the mass ratio exceeds the tidal ratio — and Split events (one
per entity) are queued exactly when the speed is above the merge threshold
and (speed ≥ split threshold or mass ratio ≥ tidal ratio).  `dist` and
`rel_speed` are the square roots of the separation/relative-velocity
squared norms, certified by the first four hypotheses. -/
theorem C5_classification (a b : Word) (dist rel_speed : ℚ)
    (hd0 : 0 ≤ dist) (hd : dist * dist = (b.pos - a.pos).length_sq)
    (hs0 : 0 ≤ rel_speed) (hs : rel_speed * rel_speed = (b.vel - a.vel).length_sq)
    (hvis : ¬ (a.mass_visible < MIN_VISIBLE_MASS ∧ b.mass_visible < MIN_VISIBLE_MASS))
    (hcol : dist < a.radius + b.radius) :
    (rel_speed ≤ MERGE_REL_SPEED_MAX →
      (resolve_pair a b dist rel_speed).2.2 = [Event.merge a.id b.id]) ∧
    (MERGE_REL_SPEED_MAX < rel_speed →
      ((SPLIT_REL_SPEED_MIN ≤ rel_speed ∨
        TIDAL_MASS_RATIO_Q ≤
          (if a.mass_total > b.mass_total then a.mass_total / max b.mass_total (1 / 10000)
           else b.mass_total / max a.mass_total (1 / 10000))) →
        (resolve_pair a b dist rel_speed).2.2 = [Event.split a.id, Event.split b.id]) ∧
      (rel_speed < SPLIT_REL_SPEED_MIN →
        (if a.mass_total > b.mass_total then a.mass_total / max b.mass_total (1 / 10000)
         else b.mass_total / max a.mass_total (1 / 10000)) < TIDAL_MASS_RATIO_Q →
        (resolve_pair a b dist rel_speed).2.2 = [])) := by
  simp only [resolve_pair, if_neg hvis, if_pos hcol]
  refine ⟨fun hm => ?_, fun hm => ⟨fun hsp => ?_, fun hsp1 hsp2 => ?_⟩⟩
  · simp only [if_pos hm]
  · rw [if_neg (not_le.mpr hm), if_pos]
    rcases hsp with h | h
    · exact Or.inl (ge_iff_le.mpr h)
    · exact Or.inr (ge_iff_le.mpr h)
  · rw [if_neg (not_le.mpr hm), if_neg]
    push_neg
    exact ⟨hsp1, hsp2⟩

/-- Merge-case pair for the C5 witness: overlapping, approaching with
pre-impulse relative speed 5 (below the merge threshold 6). -/
def c5_wa : Word := ⟨1, "a", ⟨0, 0⟩, ⟨5 / 2, 0⟩, 2, 10, 10, 0, true, [], 0, 0⟩

/-- Second entity of the C5 witness pair. -/
def c5_wb : Word := ⟨2, "b", ⟨1, 0⟩, ⟨-5 / 2, 0⟩, 2, 10, 10, 0, true, [], 0, 0⟩

/-- C5 witness: for the concrete merge-case pair the amended theorem
yields exactly one Merge event. -/
theorem C5_classification_witness :
    (resolve_pair c5_wa c5_wb 1 5).2.2 = [Event.merge c5_wa.id c5_wb.id] :=
  (C5_classification c5_wa c5_wb 1 5 (by norm_num)
      (by norm_num [c5_wa, c5_wb, Vec2.length_sq])
      (by norm_num)
      (by norm_num [c5_wa, c5_wb, Vec2.length_sq])
      (by norm_num [c5_wa, c5_wb, MIN_VISIBLE_MASS])
      (by norm_num [c5_wa, c5_wb])).1
    (by norm_num [MERGE_REL_SPEED_MAX])

/-! ## C2: weathering transfer and mass-sum conservation -/

/-- Sum of `mass_total` over a word list. -/
def total_mass (ws : List Word) : ℚ := (ws.map Word.mass_total).sum

theorem weather_word_total (dt : ℚ) (w : Word) :
    (weather_word dt w).mass_total = w.mass_visible + w.mass_dust := by
  simp only [weather_word]; ring

theorem weather_word_text (dt : ℚ) (w : Word) : (weather_word dt w).text = w.text := rfl

theorem weathering_total (dt : ℚ) (ws : List Word) (h : ∀ w ∈ ws, MassInv w) :
    total_mass (ws.map (weather_word dt)) = total_mass ws := by
  induction ws with
  | nil => rfl
  | cons w rest ih =>
    simp only [total_mass, List.map_cons, List.sum_cons] at *
    rw [weather_word_total, ← h w (List.mem_cons_self ..),
      ih (fun v hv => h v (List.mem_cons_of_mem _ hv))]

/-! ### dust-pool lemmas -/

theorem pool_has_iff (k : String) (pool : List (String × ℚ)) :
    pool_has k pool = true ↔ ∃ e ∈ pool, e.1 = k := by
  simp only [pool_has, List.find?_isSome, beq_iff_eq]

theorem pool_get_insert_ne (k k' : String) (v : ℚ) (pool : List (String × ℚ))
    (h : k' ≠ k) : pool_get k' (pool_insert k v pool) = pool_get k' pool := by
  induction pool with
  | nil =>
    have hkk : (k == k') = false := beq_eq_false_iff_ne.mpr (fun hh => h hh.symm)
    simp [pool_insert, pool_get, List.find?, hkk]
  | cons e rest ih =>
    by_cases he : e.1 = k
    · simp only [pool_insert, if_pos he, pool_get, List.find?]
      have h1 : ((k, v).1 == k') = false := by simp [beq_iff_eq]; exact fun hh => h hh.symm
      have h2 : (e.1 == k') = false := by simp [beq_iff_eq, he]; exact fun hh => h hh.symm
      rw [h1, h2]
    · simp only [pool_insert, if_neg he, pool_get, List.find?]
      cases hek : (e.1 == k') with
      | true => rfl
      | false => exact ih

theorem pool_insert_absent (k : String) (v : ℚ) (pool : List (String × ℚ))
    (h : pool_has k pool = false) : pool_insert k v pool = pool ++ [(k, v)] := by
  induction pool with
  | nil => rfl
  | cons e rest ih =>
    simp only [pool_has, List.find?] at h
    cases hek : (e.1 == k) with
    | true => rw [hek] at h; simp at h
    | false =>
      rw [hek] at h
      simp only [pool_insert, if_neg (by simpa [beq_iff_eq] using hek), List.cons_append]
      rw [ih h]

theorem pool_get_absent (k : String) (pool : List (String × ℚ))
    (h : pool_has k pool = false) : pool_get k pool = 0 := by
  cases hf : List.find? (fun e => e.1 == k) pool with
  | none => simp [pool_get, hf]
  | some e => rw [pool_has, hf] at h; simp at h

/-- With nodup texts, the weathering dust-pool rebuild produces exactly
one entry per word, in word order. -/
theorem dust_pool_build : ∀ (ws : List Word) (acc : List (String × ℚ)),
    (∀ w ∈ ws, pool_has w.text acc = false) → (ws.map Word.text).Nodup →
    ws.foldl (fun p x => pool_add x.text x.mass_dust p) acc =
      acc ++ ws.map (fun w => (w.text, w.mass_dust)) := by
  intro ws
  induction ws with
  | nil => intro acc _ _; simp
  | cons w rest ih =>
    intro acc habs hnd
    have hw : pool_has w.text acc = false := habs w (List.mem_cons_self ..)
    have hstep : pool_add w.text w.mass_dust acc = acc ++ [(w.text, w.mass_dust)] := by
      rw [pool_add, pool_get_absent _ _ hw, zero_add, pool_insert_absent _ _ _ hw]
    simp only [List.foldl_cons, hstep]
    have habs' : ∀ v ∈ rest, pool_has v.text (acc ++ [(w.text, w.mass_dust)]) = false := by
      intro v hv
      have hvw : v.text ≠ w.text := by
        intro he
        have : w.text ∈ rest.map Word.text := he ▸ List.mem_map_of_mem _ hv
        simp only [List.map_cons, List.nodup_cons] at hnd
        exact hnd.1 this
      cases hb : pool_has v.text (acc ++ [(w.text, w.mass_dust)]) with
      | false => rfl
      | true =>
        exfalso
        rcases (pool_has_iff _ _).mp hb with ⟨e, he, hek⟩
        rcases List.mem_append.mp he with he' | he'
        · have hacc : pool_has v.text acc = true := (pool_has_iff _ _).mpr ⟨e, he', hek⟩
          rw [habs v (List.mem_cons_of_mem _ hv)] at hacc
          exact Bool.false_ne_true hacc
        · simp only [List.mem_singleton] at he'
          subst he'
          have hwv : w.text = v.text := by simpa using hek
          exact hvw hwv.symm
    have hnd' : (rest.map Word.text).Nodup := by
      simp only [List.map_cons, List.nodup_cons] at hnd; exact hnd.2
    rw [ih _ habs' hnd']
    simp

/-- Looking up a member word's text in the per-word pool gives its dust
mass (texts nodup). -/
theorem pool_get_map (ws : List Word) (w : Word) (h : w ∈ ws)
    (hnd : (ws.map Word.text).Nodup) :
    pool_get w.text (ws.map (fun v => (v.text, v.mass_dust))) = w.mass_dust := by
  induction ws with
  | nil => exact absurd h (by simp)
  | cons v rest ih =>
    simp only [List.map_cons, List.nodup_cons] at hnd
    rcases List.mem_cons.mp h with he | hm
    · subst he
      simp [pool_get, List.find?]
    · have hne : v.text ≠ w.text := by
        intro hh
        exact hnd.1 (hh ▸ List.mem_map_of_mem _ hm)
      simp only [pool_get, List.map_cons, List.find?]
      have : ((v.text, v.mass_dust).1 == w.text) = false := by
        simp [beq_iff_eq]; exact hne
      rw [this]
      exact ih hm hnd.2

/-! ### update_first lemmas -/

theorem update_first_map_text {p : Word → Bool} {f : Word → Word}
    (hf : ∀ w, (f w).text = w.text) :
    ∀ ws : List Word, (update_first p f ws).map Word.text = ws.map Word.text := by
  intro ws
  induction ws with
  | nil => rfl
  | cons v vs ih =>
    simp only [update_first]
    split
    · simp [hf]
    · simp only [List.map_cons, ih]

theorem mem_update_first_of_ne {p : Word → Bool} {f : Word → Word} {v : Word} :
    ∀ {ws : List Word}, v ∈ ws → p v = false → v ∈ update_first p f ws := by
  intro ws
  induction ws with
  | nil => intro h _; exact absurd h (by simp)
  | cons u us ih =>
    intro h hp
    rcases List.mem_cons.mp h with he | hm
    · subst he
      simp only [update_first, hp]
      simp
    · simp only [update_first]
      split
      · exact List.mem_cons_of_mem _ hm
      · exact List.mem_cons_of_mem _ (ih hm hp)

theorem update_first_total {p : Word → Bool} {f : Word → Word} :
    ∀ {ws : List Word} {w0 : Word}, ws.find? p = some w0 →
      total_mass (update_first p f ws) =
        total_mass ws + ((f w0).mass_total - w0.mass_total) := by
  intro ws
  induction ws with
  | nil => intro w0 h; simp [List.find?] at h
  | cons v vs ih =>
    intro w0 h
    rw [List.find?_cons] at h
    split at h
    next hpt =>
      cases h
      simp only [update_first, hpt, if_true, total_mass, List.map_cons, List.sum_cons]
      ring
    next hpf =>
      simp only [update_first, hpf, Bool.false_eq_true, if_false, total_mass,
        List.map_cons, List.sum_cons]
      have := ih h
      simp only [total_mass] at this
      rw [this]
      ring

/-! ### one autogenesis key step -/

theorem autogenesis_key_step (ap : Approx) (dt : ℚ) (W : World) (k : String)
    (hnd : (W.words.map Word.text).Nodup)
    (hinv : ∀ w ∈ W.words, MassInv w)
    (hex : pool_get k W.dust_pool ≤ 0 ∨
      ∃ w, w ∈ W.words ∧ w.text = k ∧ pool_get k W.dust_pool = w.mass_dust) :
    total_mass (autogenesis_key ap dt W k).words = total_mass W.words ∧
    (autogenesis_key ap dt W k).words.map Word.text = W.words.map Word.text ∧
    (∀ w ∈ (autogenesis_key ap dt W k).words, MassInv w) ∧
    (∀ k', k' ≠ k →
      pool_get k' (autogenesis_key ap dt W k).dust_pool = pool_get k' W.dust_pool) ∧
    (∀ v, v ∈ W.words → v.text ≠ k → v ∈ (autogenesis_key ap dt W k).words) := by
  by_cases hdust : pool_get k W.dust_pool ≤ 0
  · have hkey : autogenesis_key ap dt W k = W := by
      simp only [autogenesis_key, if_pos hdust]
    rw [hkey]
    exact ⟨rfl, rfl, hinv, fun _ _ => rfl, fun v hv _ => hv⟩
  · rcases hex with h | ⟨w, hwmem, hwtext, hwdust⟩
    · exact absurd h hdust
    have hfind : ∃ w0, W.words.find? (fun x => x.text == k) = some w0 := by
      have : (W.words.find? (fun x => x.text == k)).isSome := by
        rw [List.find?_isSome]
        exact ⟨w, hwmem, by simp [hwtext]⟩
      exact Option.isSome_iff_exists.mp this
    rcases hfind with ⟨w0, hw0⟩
    have hw0mem : w0 ∈ W.words := List.mem_of_find?_eq_some hw0
    have hw0text : w0.text = k := by
      have := List.find?_some hw0
      simpa using this
    have hww0 : w = w0 :=
      List.inj_on_of_nodup_map hnd hwmem hw0mem (hwtext.trans hw0text.symm)
    subst hww0
    simp only [autogenesis_key, if_neg hdust, hw0]
    refine ⟨?_, ?_, ?_, ?_, ?_⟩
    · rw [update_first_total hw0]
      have h0 := hinv w hwmem
      rw [MassInv] at h0
      dsimp only
      rw [h0, hwdust]
      ring
    · apply update_first_map_text
      intro x
      rfl
    · intro v hv
      rcases mem_update_first _ _ hv with h | ⟨u, _, rfl⟩
      · exact hinv v h
      · simp [MassInv]
    · intro k' hk'
      exact pool_get_insert_ne k k' _ _ hk'
    · intro v hv hvk
      exact mem_update_first_of_ne hv (beq_eq_false_iff_ne.mpr hvk)

theorem autogenesis_fold_total (ap : Approx) (dt : ℚ) :
    ∀ (keys : List String) (W : World),
    keys.Nodup →
    (W.words.map Word.text).Nodup →
    (∀ w ∈ W.words, MassInv w) →
    (∀ k ∈ keys, pool_get k W.dust_pool ≤ 0 ∨
      ∃ w, w ∈ W.words ∧ w.text = k ∧ pool_get k W.dust_pool = w.mass_dust) →
    total_mass ((keys.foldl (autogenesis_key ap dt) W).words) = total_mass W.words := by
  intro keys
  induction keys with
  | nil => intro W _ _ _ _; rfl
  | cons k rest ih =>
    intro W hknd hnd hinv hex
    have step := autogenesis_key_step ap dt W k hnd hinv (hex k (List.mem_cons_self ..))
    simp only [List.foldl_cons]
    rw [List.nodup_cons] at hknd
    have hrest : ∀ k' ∈ rest, pool_get k' (autogenesis_key ap dt W k).dust_pool ≤ 0 ∨
        ∃ w, w ∈ (autogenesis_key ap dt W k).words ∧ w.text = k' ∧
          pool_get k' (autogenesis_key ap dt W k).dust_pool = w.mass_dust := by
      intro k' hk'
      have hne : k' ≠ k := fun he => hknd.1 (he ▸ hk')
      rw [step.2.2.2.1 k' hne]
      rcases hex k' (List.mem_cons_of_mem _ hk') with h | ⟨w, hwmem, hwtext, hwdust⟩
      · exact Or.inl h
      · exact Or.inr ⟨w, step.2.2.2.2 w hwmem (hwtext ▸ hne), hwtext, hwdust⟩
    rw [ih _ hknd.2 (step.2.1 ▸ hnd) step.2.2.1 hrest, step.1]

/-- Sum of `mass_total` is exactly preserved by weathering followed by
autogenesis, on any world whose live texts are pairwise distinct (as
guaranteed at this point of the tick by the preceding duplicate
consolidation) and whose words satisfy the mass invariant. -/
theorem weathering_autogenesis_total (ap : Approx) (dt : ℚ) (W : World)
    (hnd : (W.words.map Word.text).Nodup) (hinv : ∀ w ∈ W.words, MassInv w) :
    total_mass ((autogenesis_step ap dt (weathering_step dt W)).words) =
      total_mass W.words := by
  have hwords : (weathering_step dt W).words = W.words.map (weather_word dt) := rfl
  have htexts : (weathering_step dt W).words.map Word.text = W.words.map Word.text := by
    rw [hwords, List.map_map]
    rfl
  have hinv1 : ∀ w ∈ (weathering_step dt W).words, MassInv w := by
    intro w hw
    rw [hwords] at hw
    rcases List.mem_map.mp hw with ⟨v, _, rfl⟩
    simp [MassInv, weather_word]
  have htot1 : total_mass (weathering_step dt W).words = total_mass W.words := by
    rw [hwords]; exact weathering_total dt W.words hinv
  have hpool : (weathering_step dt W).dust_pool =
      (weathering_step dt W).words.map (fun v => (v.text, v.mass_dust)) := by
    show (W.words.map (weather_word dt)).foldl (fun p x => pool_add x.text x.mass_dust p) [] = _
    rw [dust_pool_build _ [] (fun _ _ => rfl) (htexts ▸ hnd)]
    simp [hwords]
  rw [autogenesis_step]
  split
  · exact htot1
  · have hkeysnd : ((weathering_step dt W).dust_pool.map Prod.fst).Nodup := by
      rw [hpool, List.map_map]
      have : (Prod.fst ∘ fun v : Word => (v.text, v.mass_dust)) = Word.text := rfl
      rw [this]
      exact htexts ▸ hnd
    rw [autogenesis_fold_total ap dt _ _ hkeysnd (htexts ▸ hnd) hinv1 ?_, htot1]
    intro k hk
    rw [hpool, List.map_map] at hk
    have : (Prod.fst ∘ fun v : Word => (v.text, v.mass_dust)) = Word.text := rfl
    rw [this] at hk
    rcases List.mem_map.mp hk with ⟨w, hwmem, rfl⟩
    refine Or.inr ⟨w, hwmem, rfl, ?_⟩
    rw [hpool]
    exact pool_get_map _ w hwmem (htexts ▸ hnd)

/-- C2 (amended): one weathering step moves exactly
`min(mass_visible · WEATHERING_RATE · dt, mass_visible)` from an entity's
visible mass to its own dust mass — the transfer is clamped so visible
mass cannot go negative, and equals `mass_visible · WEATHERING_RATE · dt`
exactly whenever `WEATHERING_RATE · dt ≤ 1` (true for every real tick) —
and leaves `mass_total` unchanged; and for a tick with no external
`add_word`/`set_sun` call, the sum of `mass_total` over all entities is
exactly preserved by weathering followed by autogenesis. -/
theorem C2_weathering_transfer :
    (∀ (w : Word) (dt : ℚ),
      (weather_word dt w).mass_visible =
        w.mass_visible - min (w.mass_visible * WEATHERING_RATE * dt) w.mass_visible ∧
      (weather_word dt w).mass_dust =
        w.mass_dust + min (w.mass_visible * WEATHERING_RATE * dt) w.mass_visible ∧
      (MassInv w → (weather_word dt w).mass_total = w.mass_total)) ∧
    (∀ (w : Word) (dt : ℚ), 0 ≤ w.mass_visible → WEATHERING_RATE * dt ≤ 1 →
      (weather_word dt w).mass_dust = w.mass_dust + w.mass_visible * WEATHERING_RATE * dt) ∧
    (∀ (ap : Approx) (dt : ℚ) (W : World),
      (W.words.map Word.text).Nodup → (∀ w ∈ W.words, MassInv w) →
      total_mass ((autogenesis_step ap dt (weathering_step dt W)).words) =
        total_mass W.words) := by
  refine ⟨fun w dt => ⟨rfl, rfl, fun h => ?_⟩, fun w dt h0 h1 => ?_, weathering_autogenesis_total⟩
  · rw [MassInv] at h
    rw [weather_word_total, h]
  · have hm : min (w.mass_visible * WEATHERING_RATE * dt) w.mass_visible =
        w.mass_visible * WEATHERING_RATE * dt := by
      apply min_eq_left
      nlinarith
    show w.mass_dust + min (w.mass_visible * WEATHERING_RATE * dt) w.mass_visible = _
    rw [hm]

/-- The C2 counterexample entity: visible mass 1, no dust. -/
def c2_w : Word := ⟨1, "w", 0, 0, 1, 1, 1, 0, true, [], 0, 0⟩

/-- C2 counterexample: as stated — "for every entity and every dt, one
weathering step moves exactly `mass_visible · WEATHERING_RATE · dt`" — the
claim fails: the transfer is clamped at the available visible mass
(`.min(word.mass_visible)`, line 608).  At `dt = 100`
(`WEATHERING_RATE · dt = 2`), an entity with visible mass 1 transfers 1,
not 2. -/
theorem C2_counterexample :
    (weather_word 100 c2_w).mass_dust - c2_w.mass_dust ≠
      c2_w.mass_visible * WEATHERING_RATE * 100 := by
  norm_num [weather_word, c2_w, WEATHERING_RATE]

/-- A concrete one-word world for the C2 witness. -/
def c2_world : World :=
  { words := [⟨1, "w", 0, 0, 1, 10, 10, 0, true, List.replicate TRAIL_LEN 0, 0, 1⟩]
    events := [], spatial := ⟨SPATIAL_CELL_SIZE, []⟩, sun := none, effects := []
    dust_pool := [("w", 0)], rng := ⟨fun _ => 0, 0⟩, next_id := 2, effect_cursor := 0 }

/-- C2 witness: the amended theorem applied at the standard `DT` to a
concrete entity and a concrete one-word world. -/
theorem C2_weathering_transfer_witness :
    (weather_word DT c2_w).mass_dust = c2_w.mass_dust + c2_w.mass_visible * WEATHERING_RATE * DT ∧
    (MassInv c2_w → (weather_word DT c2_w).mass_total = c2_w.mass_total) ∧
    total_mass ((autogenesis_step apX DT (weathering_step DT c2_world)).words) =
      total_mass c2_world.words :=
  ⟨C2_weathering_transfer.2.1 c2_w DT (by norm_num [c2_w]) (by norm_num [WEATHERING_RATE, DT]),
   (C2_weathering_transfer.1 c2_w DT).2.2,
   C2_weathering_transfer.2.2 apX DT c2_world (by simp [c2_world])
     (by intro w hw; simp [c2_world] at hw; subst hw; norm_num [MassInv])⟩

/-! ## C9: spatial query correctness -/

theorem int_range_mem (r : ℤ) (hr : 0 ≤ r) (a : ℤ) :
    a ∈ int_range r ↔ -r ≤ a ∧ a ≤ r := by
  simp only [int_range, List.mem_map, List.mem_range]
  constructor
  · rintro ⟨k, hk, rfl⟩
    omega
  · intro ⟨h1, h2⟩
    exact ⟨(a + r).toNat, by omega, by omega⟩

theorem cell_list_mem (h : SpatialHash) (key : ℤ × ℤ) (i : ℕ) :
    i ∈ h.cell_list key ↔
      i < h.positions.length ∧ cell_key h.cell_size (h.positions.getD i 0) = key := by
  simp only [SpatialHash.cell_list, List.mem_filter, List.mem_range, decide_eq_true_eq]

/-- Membership characterization of the grid query: `i` is returned iff it
indexes a stored position whose cell lies within Chebyshev distance
`max range 0` of the query cell. -/
theorem query_neighbors_mem (h : SpatialHash) (pos : Vec2) (range : ℤ) (i : ℕ) :
    i ∈ h.query_neighbors_range pos range ↔
      i < h.positions.length ∧
      -(max range 0) ≤ (cell_key h.cell_size (h.positions.getD i 0)).1 -
        (cell_key h.cell_size pos).1 ∧
      (cell_key h.cell_size (h.positions.getD i 0)).1 - (cell_key h.cell_size pos).1 ≤
        max range 0 ∧
      -(max range 0) ≤ (cell_key h.cell_size (h.positions.getD i 0)).2 -
        (cell_key h.cell_size pos).2 ∧
      (cell_key h.cell_size (h.positions.getD i 0)).2 - (cell_key h.cell_size pos).2 ≤
        max range 0 := by
  have hr0 : (0 : ℤ) ≤ max range 0 := le_max_right _ _
  simp only [SpatialHash.query_neighbors_range, List.mem_flatMap, cell_list_mem,
    int_range_mem _ hr0]
  constructor
  · rintro ⟨dy, ⟨hdy1, hdy2⟩, dx, ⟨hdx1, hdx2⟩, hlen, hkey⟩
    have h1 := congrArg Prod.fst hkey
    have h2 := congrArg Prod.snd hkey
    simp only at h1 h2
    refine ⟨hlen, by omega, by omega, by omega, by omega⟩
  · rintro ⟨hlen, h1, h2, h3, h4⟩
    refine ⟨(cell_key h.cell_size (h.positions.getD i 0)).2 - (cell_key h.cell_size pos).2,
      ⟨by omega, by omega⟩,
      (cell_key h.cell_size (h.positions.getD i 0)).1 - (cell_key h.cell_size pos).1,
      ⟨by omega, by omega⟩, hlen, ?_⟩
    apply Prod.ext <;> simp <;> omega

/-- C9: a spatial query at radius `r ≥ 1` returns a superset of the query
at radius `r - 1` for the same center, and a query at radius 0 returns
exactly the indices whose stored position falls in the same grid cell as
the query position. -/
theorem C9_spatial_query (h : SpatialHash) (pos : Vec2) (r : ℤ) (hr : 1 ≤ r) :
    (∀ i ∈ h.query_neighbors_range pos (r - 1), i ∈ h.query_neighbors_range pos r) ∧
    (∀ i, i ∈ h.query_neighbors_range pos 0 ↔
      i < h.positions.length ∧
      cell_key h.cell_size (h.positions.getD i 0) = cell_key h.cell_size pos) := by
  constructor
  · intro i hi
    rw [query_neighbors_mem] at hi ⊢
    have h1 : max (r - 1) 0 = r - 1 := max_eq_left (by omega)
    have h2 : max r 0 = r := max_eq_left (by omega)
    rw [h1] at hi
    rw [h2]
    exact ⟨hi.1, by omega, by omega, by omega, by omega⟩
  · intro i
    rw [query_neighbors_mem]
    constructor
    · rintro ⟨hlen, h1, h2, h3, h4⟩
      simp only [max_self] at h1 h2 h3 h4
      exact ⟨hlen, Prod.ext (by omega) (by omega)⟩
    · rintro ⟨hlen, hkey⟩
      have h1 := congrArg Prod.fst hkey
      have h2 := congrArg Prod.snd hkey
      simp only at h1 h2
      exact ⟨hlen, by omega, by omega, by omega, by omega⟩

/-- The claim's concrete grid (scenario 4): cell size 10 with points
(5,5) and (15,5) in cells (0,0) and (1,0). -/
def c9_hash : SpatialHash := ⟨10, [⟨5, 5⟩, ⟨15, 5⟩]⟩

/-- C9 witness: at radius 1 the query around (5,5) is a superset of the
radius-0 query, and the radius-0 query returns exactly the same-cell
index 0 (and not index 1, which sits in cell (1,0)). -/
theorem C9_spatial_query_witness :
    (∀ i ∈ c9_hash.query_neighbors_range ⟨5, 5⟩ 0, i ∈ c9_hash.query_neighbors_range ⟨5, 5⟩ 1) ∧
    (0 ∈ c9_hash.query_neighbors_range ⟨5, 5⟩ 0 ∧ 1 ∉ c9_hash.query_neighbors_range ⟨5, 5⟩ 0) := by
  have h := C9_spatial_query c9_hash ⟨5, 5⟩ 1 le_rfl
  have h0 : (1 : ℤ) - 1 = 0 := by norm_num
  refine ⟨h0 ▸ h.1, ?_, ?_⟩
  · rw [h.2 0]
    refine ⟨by norm_num [c9_hash], ?_⟩
    norm_num [c9_hash, cell_key]
  · rw [h.2 1]
    intro ⟨_, hkey⟩
    have := congrArg Prod.fst hkey
    norm_num [c9_hash, cell_key] at this

/-! ## C6: duplicate consolidation — supporting lemmas -/

/-- Per-text sum of a word measure over a list (sum of `f` over the words
whose text is `t`). -/
def wsum {M : Type _} [AddCommMonoid M] (f : Word → M) (ws : List Word) (t : String) : M :=
  ((ws.filter (fun w => w.text == t)).map f).sum

theorem wsum_nil {M : Type _} [AddCommMonoid M] (f : Word → M) (t : String) :
    wsum f [] t = 0 := rfl

theorem wsum_cons {M : Type _} [AddCommMonoid M] (f : Word → M) (w : Word)
    (ws : List Word) (t : String) :
    wsum f (w :: ws) t = (if w.text = t then f w else 0) + wsum f ws t := by
  simp only [wsum, List.filter_cons]
  by_cases h : w.text = t
  · rw [if_pos (by simpa using h), if_pos h, List.map_cons, List.sum_cons]
  · rw [if_neg (by simpa using h), if_neg h, zero_add]

theorem wsum_append {M : Type _} [AddCommMonoid M] (f : Word → M) (ws1 ws2 : List Word)
    (t : String) : wsum f (ws1 ++ ws2) t = wsum f ws1 t + wsum f ws2 t := by
  simp [wsum, List.filter_append]

theorem wsum_singleton {M : Type _} [AddCommMonoid M] (f : Word → M) (w : Word)
    (t : String) : wsum f [w] t = if w.text = t then f w else 0 := by
  rw [wsum_cons, wsum_nil, add_zero]

theorem wsum_set {M : Type _} [AddCommGroup M] (f : Word → M) :
    ∀ (ws : List Word) (i : ℕ) (b : Word) (t : String), i < ws.length →
      wsum f (ws.set i b) t = wsum f ws t +
        ((if b.text = t then f b else 0) -
         (if (ws.getD i default).text = t then f (ws.getD i default) else 0)) := by
  intro ws
  induction ws with
  | nil => intro i b t h; simp at h
  | cons w rest ih =>
    intro i b t h
    cases i with
    | zero =>
      simp only [List.set_cons_zero, List.getD_cons_zero, wsum_cons]
      abel
    | succ n =>
      simp only [List.set_cons_succ, List.getD_cons_succ, wsum_cons]
      rw [ih n b t (by simpa using h)]
      abel

theorem getD_mem {α : Type _} : ∀ (l : List α) (n : ℕ) (d : α), n < l.length →
    l.getD n d ∈ l := by
  intro l
  induction l with
  | nil => intro n d h; simp at h
  | cons a as ih =>
    intro n d h
    cases n with
    | zero => simp
    | succ m =>
      rw [List.getD_cons_succ]
      exact List.mem_cons_of_mem _ (ih m d (by simpa using h))

theorem set_getD_self {α : Type _} : ∀ (l : List α) (i : ℕ) (d : α), i < l.length →
    l.set i (l.getD i d) = l := by
  intro l
  induction l with
  | nil => intro i d h; simp at h
  | cons a as ih =>
    intro i d h
    cases i with
    | zero => simp
    | succ n =>
      rw [List.getD_cons_succ, List.set_cons_succ, ih n d (by simpa using h)]

theorem find_text_idx_none {t : String} :
    ∀ {ws : List Word}, find_text_idx t ws = none → ∀ w ∈ ws, w.text ≠ t := by
  intro ws
  induction ws with
  | nil => intro _ w hw; exact absurd hw (by simp)
  | cons v vs ih =>
    intro h w hw
    simp only [find_text_idx] at h
    split at h
    · exact absurd h (by simp)
    · rcases List.mem_cons.mp hw with he | hm
      · subst he; assumption
      · exact ih (Option.map_eq_none'.mp h) w hm

theorem find_text_idx_some {t : String} :
    ∀ {ws : List Word} {i : ℕ}, find_text_idx t ws = some i →
      i < ws.length ∧ (ws.getD i default).text = t := by
  intro ws
  induction ws with
  | nil => intro i h; simp [find_text_idx] at h
  | cons v vs ih =>
    intro i h
    simp only [find_text_idx] at h
    split at h
    · cases h
      exact ⟨by simp, by simpa using ‹v.text = t›⟩
    · rcases Option.map_eq_some'.mp h with ⟨j, hj, rfl⟩
      rcases ih hj with ⟨h1, h2⟩
      exact ⟨by simpa using h1, by simpa using h2⟩

/-- The bundled invariant of the consolidation fold: the result has
pairwise-distinct texts, positive masses, exactly the texts of the
accumulator and the drained input, and, per text, the sums of every mass
measure (and of mass-weighted position/velocity) split over the
accumulator and the drained input. -/
def ConsSpec (merged rest res : List Word) : Prop :=
  (res.map Word.text).Nodup ∧
  (∀ w ∈ res, 0 < w.mass_total) ∧
  (∀ t, t ∈ res.map Word.text ↔ t ∈ merged.map Word.text ∨ t ∈ rest.map Word.text) ∧
  (∀ t, wsum Word.mass_total res t =
    wsum Word.mass_total merged t + wsum Word.mass_total rest t) ∧
  (∀ t, wsum Word.mass_visible res t =
    wsum Word.mass_visible merged t + wsum Word.mass_visible rest t) ∧
  (∀ t, wsum Word.mass_dust res t =
    wsum Word.mass_dust merged t + wsum Word.mass_dust rest t) ∧
  (∀ t, wsum (fun w => w.pos.smul w.mass_total) res t =
    wsum (fun w => w.pos.smul w.mass_total) merged t +
    wsum (fun w => w.pos.smul w.mass_total) rest t) ∧
  (∀ t, wsum (fun w => w.vel.smul w.mass_total) res t =
    wsum (fun w => w.vel.smul w.mass_total) merged t +
    wsum (fun w => w.vel.smul w.mass_total) rest t)

theorem cons_target_posm (T w : Word) (b : ℚ) (h : 0 < T.mass_total + w.mass_total) :
    (cons_target T w b).pos.smul (cons_target T w b).mass_total =
      T.pos.smul T.mass_total + w.pos.smul w.mass_total := by
  have hne : T.mass_total + w.mass_total ≠ 0 := ne_of_gt h
  simp only [cons_target, if_pos h]
  apply Vec2.ext_xy <;> simp <;> field_simp <;> ring

theorem cons_target_velm (T w : Word) (b : ℚ) (h : 0 < T.mass_total + w.mass_total) :
    (cons_target T w b).vel.smul (cons_target T w b).mass_total =
      T.vel.smul T.mass_total + w.vel.smul w.mass_total := by
  have hne : T.mass_total + w.mass_total ≠ 0 := ne_of_gt h
  simp only [cons_target, if_pos h]
  apply Vec2.ext_xy <;> simp <;> field_simp <;> ring

theorem consolidate_core_spec :
    ∀ (rest merged : List Word) (best : List ℚ),
    (merged.map Word.text).Nodup →
    (∀ w ∈ merged, 0 < w.mass_total) →
    (∀ w ∈ rest, 0 < w.mass_total) →
    ConsSpec merged rest (consolidate_core rest merged best) := by
  intro rest
  induction rest with
  | nil =>
    intro merged best hnd hposM _
    rw [show consolidate_core [] merged best = merged from rfl]
    refine ⟨hnd, hposM, fun t => by simp, fun t => by simp [wsum_nil],
      fun t => by simp [wsum_nil], fun t => by simp [wsum_nil],
      fun t => by simp [wsum_nil], fun t => by simp [wsum_nil]⟩
  | cons w rest' ih =>
    intro merged best hnd hposM hposR
    have hposR' : ∀ v ∈ rest', 0 < v.mass_total :=
      fun v hv => hposR v (List.mem_cons_of_mem _ hv)
    have hwpos : 0 < w.mass_total := hposR w (List.mem_cons_self ..)
    cases hfind : find_text_idx w.text merged with
    | none =>
      have hres : consolidate_core (w :: rest') merged best =
          consolidate_core rest' (merged ++ [w]) (best ++ [w.mass_total]) := by
        simp only [consolidate_core, hfind]
      rw [hres]
      have habs : w.text ∉ merged.map Word.text := by
        intro hmem
        rcases List.mem_map.mp hmem with ⟨v, hv, hvt⟩
        exact find_text_idx_none hfind v hv hvt
      have hnd' : ((merged ++ [w]).map Word.text).Nodup := by
        rw [List.map_append]
        exact List.Nodup.append hnd (by simp) (by simpa using habs)
      have hposM' : ∀ v ∈ merged ++ [w], 0 < v.mass_total := by
        intro v hv
        rcases List.mem_append.mp hv with h | h
        · exact hposM v h
        · simp only [List.mem_singleton] at h
          exact h ▸ hwpos
      obtain ⟨a1, a2, a3, a4, a5, a6, a7, a8⟩ := ih (merged ++ [w]) _ hnd' hposM' hposR'
      refine ⟨a1, a2, fun t => ?_, fun t => ?_, fun t => ?_, fun t => ?_, fun t => ?_,
        fun t => ?_⟩
      · rw [a3 t]
        simp only [List.map_append, List.map_cons, List.mem_append, List.mem_singleton,
          List.mem_cons, List.map_nil]
        tauto
      all_goals
        first
        | (rw [a4 t, wsum_append, wsum_singleton, wsum_cons]; abel)
        | (rw [a5 t, wsum_append, wsum_singleton, wsum_cons]; abel)
        | (rw [a6 t, wsum_append, wsum_singleton, wsum_cons]; abel)
        | (rw [a7 t, wsum_append, wsum_singleton, wsum_cons]; abel)
        | (rw [a8 t, wsum_append, wsum_singleton, wsum_cons]; abel)
    | some idx =>
      obtain ⟨hidx, htext⟩ := find_text_idx_some hfind
      have htpos : 0 < (merged.getD idx default).mass_total :=
        hposM _ (getD_mem _ _ _ hidx)
      have htot : 0 < (merged.getD idx default).mass_total + w.mass_total := by linarith
      -- one unfolding step of the fold
      rw [show consolidate_core (w :: rest') merged best =
          consolidate_core rest'
            (merged.set idx (cons_target (merged.getD idx default) w (best.getD idx 0)))
            (if w.mass_total > best.getD idx 0 then best.set idx w.mass_total else best)
          from by simp only [consolidate_core, hfind]]
      have htext' : (cons_target (merged.getD idx default) w (best.getD idx 0)).text =
          (merged.getD idx default).text := rfl
      have hmap' :
          (merged.set idx (cons_target (merged.getD idx default) w (best.getD idx 0))).map
            Word.text = merged.map Word.text := by
        have h1 : (cons_target (merged.getD idx default) w (best.getD idx 0)).text =
            (merged.map Word.text).getD idx (Word.text default) := by
          rw [htext',
            show (merged.getD idx default).text =
              (merged.map Word.text).getD idx (Word.text default)
            from (List.getD_map ..).symm]
        rw [List.map_set, h1]
        exact set_getD_self _ _ _ (by simpa using hidx)
      have hnd' :
          ((merged.set idx (cons_target (merged.getD idx default) w
            (best.getD idx 0))).map Word.text).Nodup := by
        rw [hmap']; exact hnd
      have htarget_tot : (cons_target (merged.getD idx default) w
            (best.getD idx 0)).mass_total =
          (merged.getD idx default).mass_total + w.mass_total := rfl
      have hposM' : ∀ v ∈ merged.set idx (cons_target (merged.getD idx default) w
            (best.getD idx 0)), 0 < v.mass_total := by
        intro v hv
        rcases List.mem_or_eq_of_mem_set hv with h | h
        · exact hposM v h
        · rw [h, htarget_tot]; linarith
      obtain ⟨a1, a2, a3, a4, a5, a6, a7, a8⟩ :=
        ih (merged.set idx (cons_target (merged.getD idx default) w (best.getD idx 0)))
          _ hnd' hposM' hposR'
      have key : ∀ {M : Type} [AddCommGroup M] (f : Word → M),
          f (cons_target (merged.getD idx default) w (best.getD idx 0)) =
            f (merged.getD idx default) + f w →
          ∀ t, wsum f (merged.set idx (cons_target (merged.getD idx default) w
              (best.getD idx 0))) t =
            wsum f merged t + (if w.text = t then f w else 0) := by
        intro M _ f hf t
        rw [wsum_set f _ _ _ _ hidx]
        by_cases hT : w.text = t
        · simp only [htext', htext, if_pos hT, hf]
          abel
        · simp only [htext', htext, if_neg hT]
          abel
      have hwmem : w.text ∈ merged.map Word.text :=
        htext ▸ List.mem_map_of_mem Word.text (getD_mem _ _ _ hidx)
      refine ⟨a1, a2, fun t => ?_, fun t => ?_, fun t => ?_, fun t => ?_, fun t => ?_,
        fun t => ?_⟩
      · rw [a3 t, hmap']
        simp only [List.map_cons, List.mem_cons]
        constructor
        · intro h; tauto
        · rintro (h | h | h)
          · exact Or.inl h
          · exact Or.inl (h ▸ hwmem)
          · exact Or.inr h
      · rw [a4 t, key Word.mass_total htarget_tot t, wsum_cons]; abel
      · rw [a5 t, key Word.mass_visible rfl t, wsum_cons]; abel
      · rw [a6 t, key Word.mass_dust rfl t, wsum_cons]; abel
      · rw [a7 t, key (fun v => v.pos.smul v.mass_total)
            (cons_target_posm (merged.getD idx default) w (best.getD idx 0) htot) t,
          wsum_cons]
        abel
      · rw [a8 t, key (fun v => v.vel.smul v.mass_total)
            (cons_target_velm (merged.getD idx default) w (best.getD idx 0) htot) t,
          wsum_cons]
        abel

theorem filter_text_unique (t : String) :
    ∀ (ws : List Word), (ws.map Word.text).Nodup → t ∈ ws.map Word.text →
      (ws.filter (fun w => w.text == t)).length = 1 ∧
      (∀ v ∈ ws, v.text = t → ws.filter (fun w => w.text == t) = [v]) := by
  intro ws
  induction ws with
  | nil => intro _ h; simp at h
  | cons w rest ih =>
    intro hnd ht
    simp only [List.map_cons, List.nodup_cons] at hnd
    by_cases hw : w.text = t
    · have hnone : rest.filter (fun v => v.text == t) = [] := by
        rw [List.filter_eq_nil_iff]
        intro v hv
        simp only [beq_iff_eq]
        intro hvt
        exact hnd.1 (hw ▸ hvt ▸ List.mem_map_of_mem Word.text hv)
      constructor
      · rw [List.filter_cons_of_pos (by simpa using hw), hnone]
        rfl
      · intro v hv hvt
        rcases List.mem_cons.mp hv with he | hm
        · subst he
          rw [List.filter_cons_of_pos (by simpa using hw), hnone]
        · exact absurd (hw ▸ hvt ▸ List.mem_map_of_mem Word.text hm) hnd.1
    · have ht' : t ∈ rest.map Word.text := by
        rw [List.map_cons] at ht
        rcases List.mem_cons.mp ht with he | hm
        · exact absurd he.symm hw
        · exact hm
      obtain ⟨h1, h2⟩ := ih hnd.2 ht'
      have hcons : (w :: rest).filter (fun v => v.text == t) =
          rest.filter (fun v => v.text == t) :=
        List.filter_cons_of_neg (by simpa using hw)
      refine ⟨hcons ▸ h1, fun v hv hvt => ?_⟩
      rcases List.mem_cons.mp hv with he | hm
      · exact absurd (he ▸ hvt) hw
      · rw [hcons]
        exact h2 v hm hvt

theorem smul_eq_inv_smul (u S : Vec2) (m : ℚ) (hm : m ≠ 0) (h : u.smul m = S) :
    u = S.smul (1 / m) := by
  subst h
  apply Vec2.ext_xy <;> simp <;> field_simp

/-- C6: duplicate consolidation reduces each text group to exactly one
entity, whose masses are the group sums and whose position and velocity
are the mass-weighted blends of the group (stated for positive masses,
as required for the blend weights to be defined). -/
theorem C6_consolidation (ws : List Word) (hpos : ∀ w ∈ ws, 0 < w.mass_total)
    (t : String) (ht : t ∈ ws.map Word.text) :
    ((consolidate_words ws).filter (fun w => w.text == t)).length = 1 ∧
    ∀ v ∈ consolidate_words ws, v.text = t →
      v.mass_total = wsum Word.mass_total ws t ∧
      v.mass_visible = wsum Word.mass_visible ws t ∧
      v.mass_dust = wsum Word.mass_dust ws t ∧
      v.pos = (wsum (fun w => w.pos.smul w.mass_total) ws t).smul
        (1 / wsum Word.mass_total ws t) ∧
      v.vel = (wsum (fun w => w.vel.smul w.mass_total) ws t).smul
        (1 / wsum Word.mass_total ws t) := by
  have hmain : ((consolidate_words ws).map Word.text).Nodup ∧
      (∀ w ∈ consolidate_words ws, 0 < w.mass_total) ∧
      t ∈ (consolidate_words ws).map Word.text ∧
      wsum Word.mass_total (consolidate_words ws) t = wsum Word.mass_total ws t ∧
      wsum Word.mass_visible (consolidate_words ws) t = wsum Word.mass_visible ws t ∧
      wsum Word.mass_dust (consolidate_words ws) t = wsum Word.mass_dust ws t ∧
      wsum (fun w => w.pos.smul w.mass_total) (consolidate_words ws) t =
        wsum (fun w => w.pos.smul w.mass_total) ws t ∧
      wsum (fun w => w.vel.smul w.mass_total) (consolidate_words ws) t =
        wsum (fun w => w.vel.smul w.mass_total) ws t := by
    rw [consolidate_words]
    split
    next hlt =>
      have hnd : (ws.map Word.text).Nodup := by
        match ws, hlt with
        | [], _ => simp
        | [v], _ => simp
      exact ⟨hnd, hpos, ht, rfl, rfl, rfl, rfl, rfl⟩
    next =>
      split
      next hnd => exact ⟨hnd, hpos, ht, rfl, rfl, rfl, rfl, rfl⟩
      next =>
        obtain ⟨a1, a2, a3, a4, a5, a6, a7, a8⟩ :=
          consolidate_core_spec ws [] [] (by simp) (by simp) hpos
        exact ⟨a1, a2, (a3 t).mpr (Or.inr ht),
          by rw [a4 t, wsum_nil, zero_add], by rw [a5 t, wsum_nil, zero_add],
          by rw [a6 t, wsum_nil, zero_add], by rw [a7 t, wsum_nil, zero_add],
          by rw [a8 t, wsum_nil, zero_add]⟩
  obtain ⟨hnd, hposR, htmem, hs1, hs2, hs3, hs4, hs5⟩ := hmain
  obtain ⟨hlen, hfil⟩ := filter_text_unique t _ hnd htmem
  refine ⟨hlen, fun v hv hvt => ?_⟩
  have hfv := hfil v hv hvt
  have hval1 : wsum Word.mass_total (consolidate_words ws) t = v.mass_total := by
    simp only [wsum, hfv, List.map_cons, List.map_nil, List.sum_cons, List.sum_nil, add_zero]
  have hval2 : wsum Word.mass_visible (consolidate_words ws) t = v.mass_visible := by
    simp only [wsum, hfv, List.map_cons, List.map_nil, List.sum_cons, List.sum_nil, add_zero]
  have hval3 : wsum Word.mass_dust (consolidate_words ws) t = v.mass_dust := by
    simp only [wsum, hfv, List.map_cons, List.map_nil, List.sum_cons, List.sum_nil, add_zero]
  have hval4 : wsum (fun w => w.pos.smul w.mass_total) (consolidate_words ws) t =
      v.pos.smul v.mass_total := by
    simp only [wsum, hfv, List.map_cons, List.map_nil, List.sum_cons, List.sum_nil, add_zero]
  have hval5 : wsum (fun w => w.vel.smul w.mass_total) (consolidate_words ws) t =
      v.vel.smul v.mass_total := by
    simp only [wsum, hfv, List.map_cons, List.map_nil, List.sum_cons, List.sum_nil, add_zero]
  have hm : v.mass_total = wsum Word.mass_total ws t := by rw [← hs1, hval1]
  have hmne : wsum Word.mass_total ws t ≠ 0 := by
    rw [← hm]; exact ne_of_gt (hposR v hv)
  refine ⟨hm, by rw [← hs2, hval2], by rw [← hs3, hval3], ?_, ?_⟩
  · exact smul_eq_inv_smul _ _ _ hmne (by rw [← hm, ← hs4, hval4])
  · exact smul_eq_inv_smul _ _ _ hmne (by rw [← hm, ← hs5, hval5])

/-- The claim's concrete scenario (spec scenario 1), first entity. -/
def c6_a : Word := ⟨1, "A", ⟨0, 0⟩, ⟨1, 0⟩, 1, 10, 10, 0, true, [], 0, 0⟩

/-- The claim's concrete scenario, second (duplicate-text) entity. -/
def c6_b : Word := ⟨2, "A", ⟨10, 0⟩, ⟨-1, 0⟩, 1, 5, 5, 0, true, [], 0, 0⟩

/-- C6 witness: entities "A" (mass 10, pos (0,0), vel (1,0)) and "A"
(mass 5, pos (10,0), vel (-1,0)) consolidate to exactly one entity with
mass 15, pos (10/3, 0) ≈ (3.33, 0) and vel (1/3, 0) ≈ (0.33, 0). -/
theorem C6_consolidation_witness :
    ((consolidate_words [c6_a, c6_b]).filter (fun w => w.text == "A")).length = 1 ∧
    ∀ v ∈ consolidate_words [c6_a, c6_b], v.text = "A" →
      v.mass_total = 15 ∧ v.pos = Vec2.mk (10 / 3) 0 ∧ v.vel = Vec2.mk (1 / 3) 0 := by
  have h := C6_consolidation [c6_a, c6_b]
    (by intro w hw; simp only [List.mem_cons, List.mem_singleton] at hw
        rcases hw with rfl | hw
        · norm_num [c6_a]
        · simp only [List.not_mem_nil, or_false] at hw
          subst hw; norm_num [c6_b])
    "A" (by simp [c6_a, c6_b])
  refine ⟨h.1, fun v hv hvt => ?_⟩
  obtain ⟨hm, _, _, hp, hvel⟩ := h.2 v hv hvt
  refine ⟨?_, ?_, ?_⟩
  · rw [hm, wsum]
    norm_num [c6_a, c6_b]
  · rw [hp]
    apply Vec2.ext_xy <;>
      simp [wsum, c6_a, c6_b, Vec2.length_sq] <;> norm_num
  · rw [hvel]
    apply Vec2.ext_xy <;>
      simp [wsum, c6_a, c6_b] <;> norm_num

/-! ## C1: the mass invariant through every mutating operation -/

/-- The spec's §3 invariant over every live entity of a world. -/
def WorldInv (W : World) : Prop := ∀ w ∈ W.words, MassInv w

theorem mass_inv_default : MassInv default := by
  show (0 : ℚ) = 0 + 0
  norm_num

theorem mass_inv_getD (ws : List Word) (h : ∀ w ∈ ws, MassInv w) (i : ℕ) :
    MassInv (ws.getD i default) := by
  by_cases hi : i < ws.length
  · exact h _ (getD_mem ws i default hi)
  · rw [List.getD_eq_default]
    · exact mass_inv_default
    · omega

theorem resolve_pair_mass (a b : Word) (d s : ℚ) :
    ((resolve_pair a b d s).1.mass_total = a.mass_total ∧
      (resolve_pair a b d s).1.mass_visible = a.mass_visible ∧
      (resolve_pair a b d s).1.mass_dust = a.mass_dust) ∧
    ((resolve_pair a b d s).2.1.mass_total = b.mass_total ∧
      (resolve_pair a b d s).2.1.mass_visible = b.mass_visible ∧
      (resolve_pair a b d s).2.1.mass_dust = b.mass_dust) := by
  simp only [resolve_pair]
  split_ifs <;> exact ⟨⟨rfl, rfl, rfl⟩, rfl, rfl, rfl⟩

theorem mass_inv_of_fields {a b : Word} (h : MassInv b)
    (ht : a.mass_total = b.mass_total) (hv : a.mass_visible = b.mass_visible)
    (hd : a.mass_dust = b.mass_dust) : MassInv a := by
  rw [MassInv, ht, hv, hd]; exact h

theorem integrate_word_inv (dt : ℚ) (w : Word) (h : MassInv w) :
    MassInv (integrate_word dt w) := by
  apply mass_inv_of_fields h <;>
    (simp only [integrate_word, record_trail]; split_ifs <;> rfl)

theorem sun_pulse_word_inv (ap : Approx) (s : Sun) (dt : ℚ) (w : Word) (h : MassInv w) :
    MassInv (sun_pulse_word ap s dt w) := by
  apply mass_inv_of_fields h <;>
    (simp only [sun_pulse_word]; split_ifs <;> rfl)

theorem absorb_into_word_inv (w : Word) (req : SpawnRequest) (tm : ℚ) :
    MassInv (absorb_into_word w req tm) := by
  simp [MassInv, absorb_into_word]

theorem update_first_inv {p : Word → Bool} {f : Word → Word} (ws : List Word)
    (h : ∀ w ∈ ws, MassInv w) (hf : ∀ w, MassInv (f w)) :
    ∀ w ∈ update_first p f ws, MassInv w := by
  intro w hw
  rcases mem_update_first ws w hw with h1 | ⟨v, _, rfl⟩
  · exact h w h1
  · exact hf v

theorem spawn_or_absorb_inv (ap : Approx) (req : SpawnRequest) (W : World)
    (h : WorldInv W) : WorldInv (spawn_or_absorb ap req W) := by
  rw [spawn_or_absorb]
  cases hfind : W.words.find? (fun x => x.text == req.text) with
  | some target =>
    intro w hw
    exact update_first_inv W.words h (fun v => absorb_into_word_inv v req _) w hw
  | none =>
    intro w hw
    rcases List.mem_append.mp hw with h1 | h1
    · exact h w h1
    · simp only [List.mem_singleton] at h1
      subst h1
      show _ = _ + _
      rfl

theorem rebuild_spatial_inv (W : World) (h : WorldInv W) :
    WorldInv (rebuild_spatial_index W) := h

theorem apply_gravity_inv (ap : Approx) (dt : ℚ) (W : World) (h : WorldInv W) :
    WorldInv (apply_gravity_nearby ap dt W) := by
  rw [apply_gravity_nearby]
  have h1 : ∀ w ∈ (List.range W.words.length).map
      (fun i =>
        let word := W.words.getD i default
        { word with vel := word.vel + ((grav_clamp ap dt (grav_accum ap W.words i
            (W.spatial.query_neighbors_range (W.words.getD i default).pos
              SPATIAL_QUERY_RANGE_GRAVITY)))).smul dt }), MassInv w := by
    intro w hw
    rcases List.mem_map.mp hw with ⟨i, _, rfl⟩
    exact mass_inv_of_fields (mass_inv_getD W.words h i) rfl rfl rfl
  intro w hw
  cases hsun : W.sun with
  | none =>
    rw [hsun] at hw
    exact h1 w hw
  | some s =>
    rw [hsun] at hw
    rcases List.mem_map.mp hw with ⟨v, hv, rfl⟩
    exact sun_pulse_word_inv ap s dt v (h1 v hv)

theorem integrate_inv (dt : ℚ) (W : World) (h : WorldInv W) :
    WorldInv (integrate dt W) := by
  intro w hw
  rcases List.mem_map.mp hw with ⟨v, hv, rfl⟩
  exact integrate_word_inv dt v (h v hv)

theorem resolve_at_inv (ap : Approx) (i j : ℕ) (st : List Word × List Event)
    (h : ∀ w ∈ st.1, MassInv w) : ∀ w ∈ (resolve_at ap i j st).1, MassInv w := by
  rw [resolve_at]
  intro w hw
  rcases List.mem_or_eq_of_mem_set hw with h1 | h1
  · rcases List.mem_or_eq_of_mem_set h1 with h2 | h2
    · exact h w h2
    · subst h2
      rcases resolve_pair_mass (st.1.getD i default) (st.1.getD j default)
        (ap.sqrtA ((st.1.getD j default).pos - (st.1.getD i default).pos).length_sq)
        (ap.sqrtA ((st.1.getD j default).vel - (st.1.getD i default).vel).length_sq) with
        ⟨⟨h1, h2, h3⟩, _⟩
      exact mass_inv_of_fields (mass_inv_getD st.1 h i) h1 h2 h3
  · subst h1
    rcases resolve_pair_mass (st.1.getD i default) (st.1.getD j default)
      (ap.sqrtA ((st.1.getD j default).pos - (st.1.getD i default).pos).length_sq)
      (ap.sqrtA ((st.1.getD j default).vel - (st.1.getD i default).vel).length_sq) with
      ⟨_, ⟨h1, h2, h3⟩⟩
    exact mass_inv_of_fields (mass_inv_getD st.1 h j) h1 h2 h3

theorem resolve_collisions_inv (ap : Approx) (W : World) (h : WorldInv W) :
    WorldInv (resolve_collisions ap W) := by
  rw [resolve_collisions]
  have key : ∀ st : List Word × List Event, (∀ w ∈ st.1, MassInv w) →
      ∀ w ∈ ((List.range W.words.length).foldl
        (fun (st : List Word × List Event) i =>
          (W.spatial.query_neighbors_range ((st.1.getD i default)).pos
            SPATIAL_QUERY_RANGE_COLLISION).foldl
            (fun st j => if j ≤ i then st else resolve_at ap i j st) st)
        st).1, MassInv w := by
    intro st hst
    refine foldl_preserve
      (P := fun st : List Word × List Event => ∀ w ∈ st.1, MassInv w) ?_ _ st hst
    intro s i hs
    refine foldl_preserve
      (P := fun st : List Word × List Event => ∀ w ∈ st.1, MassInv w) ?_ _ s hs
    intro s' j hs'
    by_cases hij : j ≤ i
    · rw [if_pos hij]; exact hs'
    · rw [if_neg hij]; exact resolve_at_inv ap i j s' hs'
  exact key (W.words, W.events) h

theorem apply_events_inv (ap : Approx) (W : World) (h : WorldInv W) :
    WorldInv (apply_events ap W) := by
  rw [apply_events]
  split
  · exact h
  · refine foldl_preserve (fun s req hs => spawn_or_absorb_inv ap req s hs) _ _ ?_
    intro w hw
    split at hw
    · exact h w hw
    · exact h w (List.mem_filter.mp hw).1

theorem cons_target_inv (T w : Word) (b : ℚ) (hT : MassInv T) (hw : MassInv w) :
    MassInv (cons_target T w b) := by
  rw [MassInv] at hT hw ⊢
  show T.mass_total + w.mass_total =
    (T.mass_visible + w.mass_visible) + (T.mass_dust + w.mass_dust)
  rw [hT, hw]; ring

theorem consolidate_core_inv :
    ∀ (rest merged : List Word) (best : List ℚ),
      (∀ w ∈ merged, MassInv w) → (∀ w ∈ rest, MassInv w) →
      ∀ w ∈ consolidate_core rest merged best, MassInv w := by
  intro rest
  induction rest with
  | nil =>
    intro merged best hM _ w hw
    exact hM w hw
  | cons v rest' ih =>
    intro merged best hM hR
    have hR' : ∀ w ∈ rest', MassInv w := fun w hw => hR w (List.mem_cons_of_mem _ hw)
    have hv : MassInv v := hR v (List.mem_cons_self ..)
    cases hfind : find_text_idx v.text merged with
    | none =>
      rw [show consolidate_core (v :: rest') merged best =
          consolidate_core rest' (merged ++ [v]) (best ++ [v.mass_total])
        from by simp only [consolidate_core, hfind]]
      refine ih _ _ ?_ hR'
      intro w hw
      rcases List.mem_append.mp hw with h1 | h1
      · exact hM w h1
      · simp only [List.mem_singleton] at h1; exact h1 ▸ hv
    | some idx =>
      rw [show consolidate_core (v :: rest') merged best =
          consolidate_core rest'
            (merged.set idx (cons_target (merged.getD idx default) v (best.getD idx 0)))
            (if v.mass_total > best.getD idx 0 then best.set idx v.mass_total else best)
        from by simp only [consolidate_core, hfind]]
      refine ih _ _ ?_ hR'
      intro w hw
      rcases List.mem_or_eq_of_mem_set hw with h1 | h1
      · exact hM w h1
      · exact h1 ▸ cons_target_inv _ v _ (mass_inv_getD merged hM idx) hv

theorem consolidate_duplicates_inv (W : World) (h : WorldInv W) :
    WorldInv (consolidate_duplicates W) := by
  rw [consolidate_duplicates]
  split_ifs
  · exact h
  · exact h
  · exact consolidate_core_inv W.words [] [] (by simp) h

theorem weathering_inv (dt : ℚ) (W : World) : WorldInv (weathering_step dt W) := by
  intro w hw
  rcases List.mem_map.mp hw with ⟨v, _, rfl⟩
  simp [MassInv, weather_word]

theorem autogenesis_key_inv (ap : Approx) (dt : ℚ) (W : World) (k : String)
    (h : WorldInv W) : WorldInv (autogenesis_key ap dt W k) := by
  rw [autogenesis_key]
  split
  · exact h
  · split
    · intro w hw
      refine update_first_inv W.words h (fun v => ?_) w hw
      show _ = _ + _
      rfl
    · exact spawn_or_absorb_inv ap _ _ h

theorem autogenesis_inv (ap : Approx) (dt : ℚ) (W : World) (h : WorldInv W) :
    WorldInv (autogenesis_step ap dt W) := by
  rw [autogenesis_step]
  split
  · exact h
  · exact foldl_preserve (fun s k hs => autogenesis_key_inv ap dt s k hs) _ _ h

theorem update_effects_inv (dt : ℚ) (W : World) (h : WorldInv W) :
    WorldInv (update_effects dt W) := h

theorem add_word_inv (ap : Approx) (t : String) (m : ℚ) (p : Vec2) (W : World)
    (h : WorldInv W) : WorldInv (add_word ap t m p W) := by
  simp only [add_word, gen_range, gen_angle, Rng.next]
  exact spawn_or_absorb_inv ap _ _ h

theorem tick_inv (ap : Approx) (dt : ℚ) (W : World) (h : WorldInv W) :
    WorldInv (tick ap dt W) := by
  rw [tick]
  exact update_effects_inv _ _ (autogenesis_inv _ _ _ (weathering_inv _ _))

/-- C1: the mass bookkeeping invariant `mass_total = mass_visible +
mass_dust` holds for every live entity after every mutating operation —
absorption (`absorb_into_word`), spawn-or-absorb, event application
(which applies the queued Merge and Split events), duplicate
consolidation, weathering, autogenesis, an external `add_word`, and a full
`tick` (which chains gravity, integration, collision resolution and all
of the above). -/
theorem C1_mass_invariant :
    (∀ (w : Word) (req : SpawnRequest) (tm : ℚ), MassInv (absorb_into_word w req tm)) ∧
    (∀ (ap : Approx) (req : SpawnRequest) (W : World), WorldInv W →
      WorldInv (spawn_or_absorb ap req W)) ∧
    (∀ (ap : Approx) (W : World), WorldInv W → WorldInv (apply_events ap W)) ∧
    (∀ W : World, WorldInv W → WorldInv (consolidate_duplicates W)) ∧
    (∀ (dt : ℚ) (W : World), WorldInv (weathering_step dt W)) ∧
    (∀ (ap : Approx) (dt : ℚ) (W : World), WorldInv W →
      WorldInv (autogenesis_step ap dt W)) ∧
    (∀ (ap : Approx) (t : String) (m : ℚ) (p : Vec2) (W : World), WorldInv W →
      WorldInv (add_word ap t m p W)) ∧
    (∀ (ap : Approx) (dt : ℚ) (W : World), WorldInv W → WorldInv (tick ap dt W)) :=
  ⟨absorb_into_word_inv, spawn_or_absorb_inv, apply_events_inv, consolidate_duplicates_inv,
    weathering_inv, autogenesis_inv, add_word_inv, tick_inv⟩

/-- A concrete one-word world for the C1 witness. -/
def c1_world : World :=
  { words := [⟨1, "w", ⟨1, 2⟩, ⟨3, 4⟩, 1, 10, 7, 3, true, List.replicate TRAIL_LEN 0, 0, 1⟩]
    events := [], spatial := ⟨SPATIAL_CELL_SIZE, []⟩, sun := none, effects := []
    dust_pool := [("w", 3)], rng := ⟨fun _ => 0, 0⟩, next_id := 2, effect_cursor := 0 }

/-- C1 witness: the invariant survives a full tick of a concrete world
(and an absorb into a concrete word). -/
theorem C1_mass_invariant_witness :
    WorldInv (tick apX DT c1_world) ∧
    MassInv (absorb_into_word c2_w ⟨"w", 0, 0, 2, 3⟩ 5) :=
  ⟨C1_mass_invariant.2.2.2.2.2.2.2 apX DT c1_world
    (by intro w hw; simp only [c1_world, List.mem_singleton] at hw; subst hw
        norm_num [MassInv]),
   C1_mass_invariant.1 c2_w ⟨"w", 0, 0, 2, 3⟩ 5⟩

/-! ## C3: seeding and reproducibility -/

theorem spawn_effect_ring_stream (ap : Approx) (center : Vec2) (count : ℕ) (glyph : Char)
    (color : ColorId) (effects : List EffectParticle) (cursor : ℕ) (rng : Rng) :
    (spawn_effect_ring ap center count glyph color effects cursor rng).2.2.stream =
      rng.stream := by
  rw [spawn_effect_ring]
  refine foldl_preserve
    (P := fun st : List EffectParticle × ℕ × Rng => st.2.2.stream = rng.stream) ?_ _ _ rfl
  intro s i hs
  simp only [gen_range, Rng.next]
  exact hs

attribute [irreducible] spawn_effect_ring

theorem spawn_or_absorb_stream (ap : Approx) (req : SpawnRequest) (W : World) :
    (spawn_or_absorb ap req W).rng.stream = W.rng.stream := by
  rw [spawn_or_absorb]
  split
  · exact spawn_effect_ring_stream ap _ 6 _ _ _ _ _
  · rfl

theorem spawn_initial_words_stream (ap : Approx) (W : World) :
    (spawn_initial_words ap W).rng.stream = W.rng.stream := by
  rw [spawn_initial_words]
  refine foldl_preserve (P := fun w : World => w.rng.stream = W.rng.stream) ?_ _ _ rfl
  intro s i hs
  simp only [gen_range, gen_range_nat_lt, Rng.next]
  rw [spawn_or_absorb_stream]
  exact hs

attribute [irreducible] spawn_initial_words

theorem World_new_stream (ap : Approx) (e : Rng) :
    (World.new ap e).rng.stream = e.stream := by
  rw [World.new]
  exact spawn_initial_words_stream ap _

/-- C3 counterexample: `World::new` takes no seed — its rng is
`StdRng::from_entropy()` (line 60), an arbitrary external entropy input —
so two constructions are *not* guaranteed identical states: with two
different entropy streams the constructed worlds differ (already in their
rng state, and hence in all subsequent random behavior). -/
theorem C3_counterexample :
    World.new apX ⟨fun _ => 0, 0⟩ ≠ World.new apX ⟨fun _ => 1, 0⟩ := by
  intro h
  have h0 := congrArg (fun W : World => W.rng.stream 0) h
  simp only at h0
  have h1 : (World.new apX ⟨fun _ => 0, 0⟩).rng.stream 0 = (0 : ℚ) := by
    rw [World_new_stream]
  have h2 : (World.new apX ⟨fun _ => 1, 0⟩).rng.stream 0 = (1 : ℚ) := by
    rw [World_new_stream]
  rw [h1, h2] at h0
  norm_num at h0

/-- C3 (amended): the engine is deterministic as a function of the RNG
state and the call sequence — the World owns a single random stream and no
other hidden input, so two runs whose initial entropy streams are equal
and which receive the same sequence of `tick`/`add_word`/`set_sun` calls
produce identical states.  (What fails in the claim as stated is the
"explicitly seeded" part: `new()` has no seed parameter and seeds from OS
entropy.) -/
theorem C3_determinism (ap : Approx) (e1 e2 : Rng) (cs1 cs2 : List Command)
    (he : e1 = e2) (hc : cs1 = cs2) :
    run_commands ap (World.new ap e1) cs1 = run_commands ap (World.new ap e2) cs2 := by
  subst he
  subst hc
  rfl

/-- C3 witness: equal entropy and an identical two-command sequence yield
identical states. -/
theorem C3_determinism_witness :
    run_commands apX (World.new apX ⟨fun _ => 0, 0⟩) [Command.tickC DT, Command.setSunC 0] =
      run_commands apX (World.new apX ⟨fun _ => 0, 0⟩) [Command.tickC DT, Command.setSunC 0] :=
  C3_determinism apX ⟨fun _ => 0, 0⟩ ⟨fun _ => 0, 0⟩ _ _ rfl rfl

end WordCosmo
